import Mathlib

/-!
A shallow embedding of the Scrabble move-generation engine of
`src/Scrabble.py`, together with proofs about it.

Modelling conventions:
* A board square (a Python value that is either the border string `'|'`,
  the empty-square string `'.'`, the start-square string `'*'`, a
  one-letter string, the global unrestricted anchor object `ANY`, or a
  freshly created `Anchor` set) is modelled by the inductive type
  `Square`.  The source distinguishes the global `ANY` object from fresh
  `Anchor` sets by object identity (`sq is not ANY`); we mirror this with
  the two constructors `anchorAny` and `anchor`.
* Python strings are `List Char`; word sets are `List (List Char)` used
  up to membership (Python sets are used only through membership and
  iteration feeding further sets, so list models are adequate).
* The word list file `words4k.txt` is not part of the sources, so the
  globals `WORDS` and `PREFIXES` are explicit parameters of every
  function that reads them.
* In-place mutation of the board (`set_anchors`, `make_play`) is made
  explicit: the mutating functions return the updated board, and
  `horizontal_plays`/`all_plays`/`best_play` return the final state of
  the board that the source mutates in place.
* The source binds the name `add_suffixes` twice: the 6-parameter
  board-aware search of lines 302-316 and, later, the 3-parameter word
  builder of lines 377-385.  Python resolves names at call time, so every
  call to `add_suffixes` (including the recursive ones inside lines
  302-316) uses the 3-parameter function, and the 6-argument calls in
  `row_plays` raise `TypeError`.  Likewise `row_plays` calls
  `find_prefixes(hand)` with the default `results=None`, which raises
  `AttributeError` at `results.add` (or returns `None`, over which the
  caller's `for` loop raises `TypeError`).  These exceptions are
  modelled with `Except PyExc`; the search functions return the
  exception or the normal result, together with the state of the
  caller's board when control leaves them.
* Out-of-range reads return `Square.border`; on the bordered boards the
  program runs on (and that the theorems below hypothesise) no
  out-of-range access can occur, matching the source, which would raise
  on one.
-/

/-- Board squares; see the modelling conventions above. -/
inductive Square where
  | border
  | empty
  | star
  | letter (c : Char)
  | anchorAny
  | anchor (s : List Char)
deriving Repr, DecidableEq

/-- `LETTERS = list('ABCDEFGHIJKLMNOPQRSTUVWXYZ')`. -/
def LETTERS : List Char := "ABCDEFGHIJKLMNOPQRSTUVWXYZ".toList

/-- The `POINTS` table of the source (`_` is the wildcard, worth 0).
Characters outside the table would raise a `KeyError` in the source and
are never looked up; we return 0 for them. -/
def POINTS (c : Char) : Nat :=
  if c = 'A' then 1 else if c = 'B' then 3 else if c = 'C' then 3
  else if c = 'D' then 2 else if c = 'E' then 1 else if c = 'F' then 4
  else if c = 'G' then 2 else if c = 'H' then 4 else if c = 'I' then 1
  else if c = 'J' then 8 else if c = 'K' then 5 else if c = 'L' then 1
  else if c = 'M' then 3 else if c = 'N' then 1 else if c = 'O' then 1
  else if c = 'P' then 3 else if c = 'Q' then 10 else if c = 'R' then 1
  else if c = 'S' then 1 else if c = 'T' then 1 else if c = 'U' then 1
  else if c = 'V' then 4 else if c = 'W' then 4 else if c = 'X' then 8
  else if c = 'Y' then 4 else if c = 'Z' then 10 else 0

/-- Directions `ACROSS, DOWN = (1, 0), (0, 1)`. -/
def ACROSS : Nat × Nat := (1, 0)

/-- Direction `DOWN = (0, 1)`. -/
def DOWN : Nat × Nat := (0, 1)

/-- A board is a list of rows of squares, indexed `board[j][i]` with `j`
the row and `i` the column, as in the source. -/
abbrev Board := List (List Square)

/-- `is_letter(sq)`: `sq` is a one-character string drawn from `LETTERS`. -/
def is_letter (sq : Square) : Bool :=
  match sq with
  | .letter c => LETTERS.contains c
  | _ => false

/-- `is_empty(sq)`: `sq == '.' or sq == '*' or isinstance(sq, set)`. -/
def is_empty (sq : Square) : Bool :=
  match sq with
  | .empty => true
  | .star => true
  | .anchorAny => true
  | .anchor _ => true
  | _ => false

/-- The character carried by a square when the source treats it as a
string (used by `''.join` in `legal_prefix` and by string concatenation
in `find_cross_word`, both only ever applied to letter squares). -/
def sqChar (sq : Square) : Char :=
  match sq with
  | .letter c => c
  | .border => '|'
  | .empty => '.'
  | .star => '*'
  | _ => '?'

/-- Read `board[j][i]`; out of range gives `border` (see conventions). -/
def getSq (board : Board) (i j : Nat) : Square :=
  (board.getD j []).getD i Square.border

/-- Write `board[j][i] = v` (no-op out of range; see conventions). -/
def setSq (board : Board) (i j : Nat) (v : Square) : Board :=
  board.set j ((board.getD j []).set i v)

/-- `mirror(sequence) = sequence + sequence[-2::-1]`. -/
def mirror {α : Type} (sequence : List α) : List α :=
  sequence ++ sequence.dropLast.reverse

/-- `bonus_template(quadrant)`: make a full board from the upper-left
quadrant (the argument is `quadrant.split()`, the list of its lines). -/
def bonus_template (quadrant : List (List Char)) : List (List Char) :=
  mirror (quadrant.map mirror)

/-- The WWF quadrant, line by line, as produced by `split()`. -/
def WWFquadrant : List (List Char) :=
  ["|||||||||",
   "|...3..;.",
   "|..:..2..",
   "|.:..:...",
   "|3..;...2",
   "|..:...:.",
   "|.2...3..",
   "|;...:...",
   "|...:...*"].map String.toList

/-- `WWF = bonus_template(...)`. -/
def WWF : List (List Char) := bonus_template WWFquadrant

/-- `BONUS = WWF`. -/
def BONUS : List (List Char) := WWF

/-- `DW, TW, DL, TL = '23:;'`. -/
def DW : Char := '2'

/-- Triple word bonus code. -/
def TW : Char := '3'

/-- Double letter bonus code. -/
def DL : Char := ':'

/-- Triple letter bonus code. -/
def TL : Char := ';'

/-- Read `BONUS[j][i]`; out of range gives `'|'`. -/
def getBonus (i j : Nat) : Char :=
  (BONUS.getD j []).getD i '|'

/-- The empty playing board matching the `BONUS` template: border where
the template has `'|'`, the start square where it has `'*'`, empty
elsewhere. -/
def empty_board : Board :=
  BONUS.map (fun row => row.map (fun c =>
    if c = '|' then Square.border
    else if c = '*' then Square.star
    else Square.empty))

/-- `transpose(matrix) = map(list, zip(*matrix))`.  Python's `zip`
truncates at the shortest row, so the iteration stops as soon as any
row is exhausted.  `fuel` makes the recursion structural; it only
bounds the number of iterations and is chosen so that it can never be
exhausted (every iteration shortens the first row). -/
def transposeAux {α : Type} : Nat → List (List α) → List (List α)
  | 0, _ => []
  | fuel + 1, matrix =>
      if matrix.isEmpty ∨ matrix.any List.isEmpty then []
      else (matrix.filterMap List.head?) :: transposeAux fuel (matrix.map List.tail)

/-- `transpose(matrix)`; see `transposeAux`. -/
def transpose {α : Type} (matrix : List (List α)) : List (List α) :=
  transposeAux ((matrix.headD []).length + 1) matrix

/-- `prefixes(word) = [word[:i] for i in range(len(word))]`: all initial
segments of `word`, the complete word excluded. -/
def prefixes (word : List Char) : List (List Char) :=
  (List.range word.length).map (fun i => word.take i)

/-- Python `str.split()`: split on runs of whitespace, dropping empty
tokens.  (`Char.isWhitespace` covers the whitespace characters that can
occur in the word-list text.) -/
def pySplitAux : List Char → List Char → List (List Char)
  | [], cur => if cur = [] then [] else [cur.reverse]
  | c :: cs, cur =>
      if c.isWhitespace then
        if cur = [] then pySplitAux cs [] else cur.reverse :: pySplitAux cs []
      else pySplitAux cs (c :: cur)

/-- Python `text.split()`. -/
def pySplit (text : List Char) : List (List Char) :=
  pySplitAux text []

/-- `readwordlist`: the source reads the file, uppercases the text,
splits it into words, and accumulates the word set and the prefix set.
File access is outside the engine, so the text is a parameter here. -/
def readwordlist (text : List Char) : List (List Char) × List (List Char) :=
  let words := pySplit (text.map Char.toUpper)
  words.foldl (fun (sets : List (List Char) × List (List Char)) word =>
    (sets.1 ++ [word], sets.2 ++ prefixes word)) ([], [])

/-- A play `(score, (i, j), (di, dj), word)` as built by `all_plays`. -/
abbrev Play := Nat × (Nat × Nat) × (Nat × Nat) × List Char

/-- `make_play(play, board)`: the letter-writing loop. -/
def make_play_go (i j di dj : Nat) (word : List Char) (board : Board) : Board :=
  match word with
  | [] => board
  | letter :: rest =>
      make_play_go (i + di) (j + dj) di dj rest (setSq board i j (Square.letter letter))

/-- `make_play(play, board)`: put the word down on the board. -/
def make_play (play : Play) (board : Board) : Board :=
  make_play_go play.2.1.1 play.2.1.2 play.2.2.1.1 play.2.2.1.2 play.2.2.2 board

/-- Restricted-anchor test: `isinstance(sq, set) and sq is not ANY`. -/
def isRestricted (sq : Square) : Bool :=
  match sq with
  | .anchor _ => true
  | _ => false

/-- Anchor test: `isinstance(square, Anchor)`. -/
def isAnchorSq (sq : Square) : Bool :=
  match sq with
  | .anchorAny => true
  | .anchor _ => true
  | _ => false

/-- `w.replace('.', L)`. -/
def replaceDot (w : List Char) (L : Char) : List Char :=
  w.map (fun c => if c = '.' then L else c)

/-- Upward loop of `find_cross_word`: `for j2 in range(j, 0, -1)`,
prepending letters and stopping at the first non-letter.  The argument
is the loop variable `j2`; the square inspected is `board[j2-1][i]`.
When the range is exhausted the loop variable ends at 1. -/
def fcw_up (board : Board) (i : Nat) : Nat → List Char → Nat × List Char
  | 0, w => (1, w)
  | j2 + 1, w =>
      let sq2 := getSq board i j2
      if is_letter sq2 then fcw_up board i j2 (sqChar sq2 :: w)
      else (j2 + 1, w)

/-- Downward loop of `find_cross_word`: `for j3 in range(j+1, len(board))`,
appending letters and stopping at the first non-letter.  `fuel` bounds
the remaining range and is chosen so that it can never be exhausted. -/
def fcw_down_aux (board : Board) (i : Nat) : Nat → Nat → List Char
  | 0, _ => []
  | fuel + 1, j3 =>
      if j3 < board.length then
        let sq3 := getSq board i j3
        if is_letter sq3 then sqChar sq3 :: fcw_down_aux board i fuel (j3 + 1) else []
      else []

/-- Downward loop of `find_cross_word`; see `fcw_down_aux`. -/
def fcw_down (board : Board) (i : Nat) (j3 : Nat) : List Char :=
  fcw_down_aux board i (board.length - j3) j3

/-- `find_cross_word(board, i, j)`: the vertical word crossing
`board[j][i]`, with that square rendered as `'.'` unless it already
holds a letter; returns the starting row and the word. -/
def find_cross_word (board : Board) (i j : Nat) : Nat × List Char :=
  let sq := getSq board i j
  let w0 : List Char := if is_letter sq then [sqChar sq] else ['.']
  let up := fcw_up board i j w0
  (up.1, up.2 ++ fcw_down board i (j + 1))

/-- The letter-by-letter scoring loop shared by `calculate_score` in
both directions.  `crossAllowed` is `direction is not DOWN`: the
recursive cross-word call of the source always passes `DOWN`, for which
the cross branch is disabled, so the recursion has depth one and is
unfolded into `cross_word_score` below. -/
def score_walk (board : Board) (starti startj di dj : Nat) (crossAllowed : Bool)
    (cross : Char → Nat → Nat → Nat) (word : List Char) : Nat :=
  let res := word.enum.foldl
    (fun (acc : Nat × Nat × Nat) nL =>
      let total := acc.1
      let cross_total := acc.2.1
      let word_multiplier := acc.2.2
      let i := starti + nL.1 * di
      let j := startj + nL.1 * dj
      let sq := getSq board i j
      let b := getBonus i j
      let word_multiplier := word_multiplier *
        (if is_letter sq then 1 else if b = TW then 3
         else if b = DW ∨ b = '*' then 2 else 1)
      let letter_mult : Nat :=
        (if is_letter sq then 1 else if b = TL then 3 else if b = DL then 2 else 1)
      let total := total + POINTS nL.2 * letter_mult
      let cross_total :=
        if isRestricted sq ∧ crossAllowed then cross_total + cross nL.2 i j
        else cross_total
      (total, cross_total, word_multiplier))
    (0, 0, 1)
  res.2.1 + res.2.2 * res.1

/-- `cross_word_score(board, L, (i, j), direction)`: score the vertical
word through `(i, j)` with `L` substituted for the placeholder.  (The
`direction` parameter of the source is unused: the inner
`calculate_score` call is always made with `DOWN`.) -/
def cross_word_score (board : Board) (L : Char) (i j : Nat) : Nat :=
  let r := find_cross_word board i j
  score_walk board i r.1 DOWN.1 DOWN.2 false (fun _ _ _ => 0) (replaceDot r.2 L)

/-- `calculate_score(board, pos, direction, hand, word)`.  The `hand`
argument is unused by the source body and kept for fidelity. -/
def calculate_score (board : Board) (pos : Nat × Nat) (direction : Nat × Nat)
    (hand : List Char) (word : List Char) : Nat :=
  score_walk board pos.1 pos.2 direction.1 direction.2 (direction != DOWN)
    (fun L i j => cross_word_score board L i j) word

/-- One iteration of the `set_anchors` loop at column `i` of row `j`.
`orig` is the copy of the row over which the source's `enumerate`
iterates (the slice `row[1:-1]` is copied before any mutation); all
other reads go through the live board, as in the source. -/
def set_anchors_step (WORDS : List (List Char)) (orig : List Square) (j : Nat)
    (board : Board) (i : Nat) : Board :=
  let sq := orig.getD i Square.border
  let N := getSq board i (j - 1)
  let S := getSq board i (j + 1)
  let E := getSq board (i + 1) j
  let W := getSq board (i - 1) j
  if sq = Square.star ∨ (is_empty sq ∧ (is_letter N ∨ is_letter S ∨ is_letter E ∨ is_letter W)) then
    if is_letter N ∨ is_letter S then
      let w := (find_cross_word board i j).2
      setSq board i j (Square.anchor (LETTERS.filter (fun L => replaceDot w L ∈ WORDS)))
    else setSq board i j Square.anchorAny
  else board

/-- `set_anchors(row, j, board)`: mark the anchor squares of row `j` in
place; the columns scanned are `1 .. len(row)-2`. -/
def set_anchors (WORDS : List (List Char)) (j : Nat) (board : Board) : Board :=
  let orig := board.getD j []
  (List.range' 1 (orig.length - 2)).foldl (set_anchors_step WORDS orig j) board

/-- First loop of `legal_prefix`: move `start` left over letters. -/
def lp_letters (row : List Square) : Nat → Nat
  | 0 => 0
  | s + 1 => if is_letter (row.getD s Square.border) then lp_letters row s else s + 1

/-- Second loop of `legal_prefix`: move `start` left over plain empty
squares (`is_empty` but not a set, i.e. `'.'` or `'*'`). -/
def lp_empties (row : List Square) : Nat → Nat
  | 0 => 0
  | s + 1 =>
      if row.getD s Square.border = Square.empty ∨ row.getD s Square.border = Square.star
      then lp_empties row s else s + 1

/-- `legal_prefix(i, row)`: the letters already on the board immediately
left of the anchor (with their length as maxsize), or the empty prefix
with the number of plain empty squares available to the left. -/
def legalPrefix (i : Nat) (row : List Square) : List Char × Nat :=
  let start := lp_letters row i
  if start < i then
    ((List.range' start (i - start)).map (fun k => sqChar (row.getD k Square.border)), i - start)
  else
    ([], i - lp_empties row i)

/-- `removed(letters, remove)`: remove each letter of `remove` once
(`str.replace(L, '', 1)` drops the first occurrence). -/
def removed (letters remove : List Char) : List Char :=
  remove.foldl (fun ls L => ls.erase L) letters

/-- The Python exceptions the search can raise. -/
inductive PyExc where
  | typeError
  | attributeError
deriving Repr, DecidableEq

/-- `find_prefixes(hand)` as `row_plays` calls it (line 269 of the
source): `prefix` defaults to `''` and `results` to `None`, and the
one-entry global cache is either empty or maps this hand to `None`, so
it never changes the outcome.  When the empty prefix is in `PREFIXES`
(always, once any word has been read) the call executes
`results.add(prefix)` on `None` and raises `AttributeError`; otherwise
both `if` bodies are skipped and the call returns `None`. -/
def find_prefixes (PREFIXES : List (List Char)) (hand : List Char) :
    Except PyExc (Option (List (List Char))) :=
  if [] ∈ PREFIXES then Except.error PyExc.attributeError else Except.ok none

/-- `add_suffixes(hand, prefix, results)`: the 3-parameter word builder
of lines 377-385, which is the binding the name `add_suffixes` holds at
run time -- it is defined after, and therefore shadows, the
6-parameter board-aware search of lines 302-316, which can never
execute (even its recursive calls would resolve to this function).
The set mutation of `results` is threaded through the fold (callers
ignore the return value, so the `return`/`return results` distinction
is dropped); `fuel` makes the recursion structural and only bounds its
depth, every recursive call consuming one hand letter. -/
def add_suffixes (WORDS PREFIXES : List (List Char)) :
    Nat → List Char → List Char → List (List Char) → List (List Char)
  | 0, _, _, results => results
  | fuel + 1, hand, pre, results =>
      let results := if pre ∈ WORDS then results ++ [pre] else results
      if pre ∈ PREFIXES then
        hand.foldl (fun results L =>
          add_suffixes WORDS PREFIXES fuel (hand.erase L) (pre ++ [L]) results) results
      else results

/-- The anchor scan of `row_plays` (lines 260-272).  At the first
anchor square the source calls `add_suffixes` with six arguments
(lines 266 and 272), but `add_suffixes` is the 3-parameter function of
line 377, so the call raises `TypeError`; on the empty-prefix branch
`find_prefixes(hand)` (line 269) raises `AttributeError` first when
the empty prefix is in `PREFIXES`, and otherwise returns `None`, over
which the `for` loop raises `TypeError`.  The scan therefore completes
(with an empty result set) only when the row has no anchor at all. -/
def rp_scan (PREFIXES : List (List Char)) (hand : List Char) (row : List Square) :
    List Nat → Except PyExc (List (Nat × List Char))
  | [] => Except.ok []
  | i :: rest =>
      if isAnchorSq (row.getD i Square.border) then
        if (legalPrefix i row).1 ≠ [] then Except.error PyExc.typeError
        else
          match find_prefixes PREFIXES hand with
          | Except.error e => Except.error e
          | Except.ok _ => Except.error PyExc.typeError
      else rp_scan PREFIXES hand row rest

/-- `row_plays(hand, row)`; see `rp_scan`. -/
def row_plays (PREFIXES : List (List Char)) (hand : List Char)
    (row : List Square) : Except PyExc (List (Nat × List Char)) :=
  rp_scan PREFIXES hand row (List.range' 1 (row.length - 2))

/-- The row loop of `horizontal_plays` (lines 196-200): anchor each row
in place, then collect and score its plays.  An exception from
`row_plays` propagates with the board left in its mutated state; the
final board state is returned alongside the outcome. -/
def hp_go (WORDS PREFIXES : List (List Char)) (hand : List Char) :
    List Nat → List (Nat × (Nat × Nat) × List Char) → Board →
    Except PyExc (List (Nat × (Nat × Nat) × List Char)) × Board
  | [], res, board => (Except.ok res, board)
  | j :: js, res, board =>
      match row_plays PREFIXES hand ((set_anchors WORDS j board).getD j []) with
      | Except.error e => (Except.error e, set_anchors WORDS j board)
      | Except.ok rps =>
          hp_go WORDS PREFIXES hand js
            (res ++ rps.map (fun iw =>
              (calculate_score (set_anchors WORDS j board) (iw.1, j) ACROSS hand iw.2,
               (iw.1, j), iw.2))) (set_anchors WORDS j board)

/-- `horizontal_plays(hand, board)`; see `hp_go`. -/
def horizontal_plays (WORDS PREFIXES : List (List Char)) (hand : List Char)
    (board : Board) : Except PyExc (List (Nat × (Nat × Nat) × List Char)) × Board :=
  hp_go WORDS PREFIXES hand (List.range' 1 (board.length - 2)) [] board

/-- `all_plays(hand, board)` (lines 136-148): horizontal plays of the
board plus horizontal plays of its transpose, re-labelled as `DOWN`
plays with the coordinates swapped back.  The first call mutates the
caller's board (`transpose` copies, so the second call's mutations are
discarded); an exception from either pass propagates. -/
def all_plays (WORDS PREFIXES : List (List Char)) (hand : List Char)
    (board : Board) : Except PyExc (List Play) × Board :=
  match horizontal_plays WORDS PREFIXES hand board with
  | (Except.error e, b1) => (Except.error e, b1)
  | (Except.ok hplays, b1) =>
      match (horizontal_plays WORDS PREFIXES hand (transpose b1)).1 with
      | Except.error e => (Except.error e, b1)
      | Except.ok vplays =>
          (Except.ok (hplays.map (fun p => (p.1, p.2.1, ACROSS, p.2.2)) ++
             vplays.map (fun p => (p.1, (p.2.1.2, p.2.1.1), DOWN, p.2.2))), b1)

/-- The total order under which Python compares play tuples
`(score, (i, j), (di, dj), word)`: lexicographic in each component. -/
def playKey (p : Play) :
    Lex (Nat × Lex (Lex (Nat × Nat) × Lex (Lex (Nat × Nat) × List Char))) :=
  toLex (p.1, toLex (toLex p.2.1, toLex (toLex p.2.2.1, p.2.2.2)))

/-- `sorted(plays, reverse=True)[0]`: the maximal play of a nonempty
list under the tuple order, `none` for the empty list. -/
def best_of (plays : List Play) : Option Play :=
  plays.foldl (fun acc p =>
    match acc with
    | none => some p
    | some q => if playKey q < playKey p then some p else some q) none

/-- `best_play(hand, board)` (lines 115-120): the highest-scoring play
or `NOPLAY = None`, or the exception propagating out of the search;
paired with the state of the caller's board when control returns. -/
def best_play (WORDS PREFIXES : List (List Char)) (hand : List Char)
    (board : Board) : Except PyExc (Option Play) × Board :=
  match all_plays WORDS PREFIXES hand board with
  | (Except.error e, b1) => (Except.error e, b1)
  | (Except.ok plays, b1) => (Except.ok (best_of plays), b1)

/-- The score field of a play. -/
def play_score (p : Play) : Nat := p.1

/-! ### Basic board access lemmas -/

/-- Row of a board after a write to another row. -/
theorem setSq_row_ne (b : Board) (i j j' : Nat) (v : Square) (hj : j' ≠ j) :
    (setSq b i j v).getD j' [] = b.getD j' [] := by
  unfold setSq
  rw [List.getD_eq_getElem?_getD, List.getElem?_set_ne (Ne.symm hj),
    ← List.getD_eq_getElem?_getD]

/-- Row of a board after a write to that row. -/
theorem setSq_row_eq (b : Board) (i j : Nat) (v : Square) :
    (setSq b i j v).getD j [] = if j < b.length then (b.getD j []).set i v else [] := by
  unfold setSq
  rw [List.getD_eq_getElem?_getD, List.getElem?_set, if_pos rfl]
  by_cases hl : j < b.length
  · rw [if_pos hl, if_pos hl, Option.getD_some]
  · rw [if_neg hl, if_neg hl]; rfl

/-- Reading an untouched square after a single write. -/
theorem getSq_setSq_ne (b : Board) (i j i' j' : Nat) (v : Square)
    (h : ¬ (i' = i ∧ j' = j)) : getSq (setSq b i j v) i' j' = getSq b i' j' := by
  unfold getSq
  rcases eq_or_ne j' j with hj | hj
  · subst hj
    have hi : i' ≠ i := fun hc => h ⟨hc, rfl⟩
    rw [setSq_row_eq]
    by_cases hl : j' < b.length
    · rw [if_pos hl, List.getD_eq_getElem?_getD, List.getElem?_set_ne (Ne.symm hi),
        ← List.getD_eq_getElem?_getD]
    · rw [if_neg hl, List.getD_eq_default b [] (by omega)]
  · rw [setSq_row_ne _ _ _ _ _ hj]

/-- Reading a square just written in bounds. -/
theorem getSq_setSq_self (b : Board) (i j : Nat) (v : Square)
    (hj : j < b.length) (hi : i < (b.getD j []).length) :
    getSq (setSq b i j v) i j = v := by
  unfold getSq
  rw [setSq_row_eq, if_pos hj, List.getD_eq_getElem?_getD,
    List.getElem?_set, if_pos rfl, if_pos hi, Option.getD_some]

/-- A write keeps the outer length. -/
theorem setSq_length (b : Board) (i j : Nat) (v : Square) :
    (setSq b i j v).length = b.length := by
  unfold setSq; exact List.length_set b j _

/-- A write keeps every row length. -/
theorem setSq_row_length (b : Board) (i j j' : Nat) (v : Square) :
    ((setSq b i j v).getD j' []).length = (b.getD j' []).length := by
  rcases eq_or_ne j' j with hj | hj
  · subst hj
    rw [setSq_row_eq]
    by_cases hl : j' < b.length
    · rw [if_pos hl, List.length_set]
    · rw [if_neg hl, List.getD_eq_default b [] (by omega)]
  · rw [setSq_row_ne _ _ _ _ _ hj]

/-! ### `make_play` path lemmas (shared by C5 and C10) -/

/-- `make_play_go` leaves every off-path square unchanged. -/
theorem make_play_go_frame (di dj : Nat) (word : List Char) :
    ∀ (i j : Nat) (board : Board) (i' j' : Nat),
    (∀ k, k < word.length → ¬ (i' = i + k * di ∧ j' = j + k * dj)) →
    getSq (make_play_go i j di dj word board) i' j' = getSq board i' j' := by
  induction word with
  | nil => intro i j board i' j' _; rfl
  | cons L rest ih =>
      intro i j board i' j' h
      show getSq (make_play_go (i + di) (j + dj) di dj rest
        (setSq board i j (Square.letter L))) i' j' = getSq board i' j'
      rw [ih (i + di) (j + dj) _ i' j' ?htail]
      · exact getSq_setSq_ne _ _ _ _ _ _ (by
          have h0 := h 0 (by simp)
          simpa using h0)
      · intro k hk
        have hk1 := h (k + 1) (by simp; omega)
        have e1 : i + (k + 1) * di = i + di + k * di := by ring
        have e2 : j + (k + 1) * dj = j + dj + k * dj := by ring
        rw [e1, e2] at hk1
        exact hk1

/-- `make_play_go` writes each letter of the word at its path square,
provided the direction is not the null step and the path is in bounds. -/
theorem make_play_go_writes (di dj : Nat) (hd : ¬ (di = 0 ∧ dj = 0)) (word : List Char) :
    ∀ (i j : Nat) (board : Board),
    (∀ k, k < word.length →
      j + k * dj < board.length ∧ i + k * di < (board.getD (j + k * dj) []).length) →
    ∀ k, k < word.length →
      getSq (make_play_go i j di dj word board) (i + k * di) (j + k * dj) =
        Square.letter (word.getD k ' ') := by
  induction word with
  | nil => intro i j board _ k hk; simp at hk
  | cons L rest ih =>
      intro i j board hb k hk
      show getSq (make_play_go (i + di) (j + dj) di dj rest
        (setSq board i j (Square.letter L))) (i + k * di) (j + k * dj) = _
      match k with
      | 0 =>
          simp only [Nat.zero_mul, Nat.add_zero]
          rw [make_play_go_frame di dj rest (i + di) (j + dj) _ i j ?hoff]
          · have h0 := hb 0 (by simp)
            simp only [Nat.zero_mul, Nat.add_zero] at h0
            rw [getSq_setSq_self _ _ _ _ h0.1 h0.2]
            rfl
          · intro m hm hc
            obtain ⟨hci, hcj⟩ := hc
            have : di = 0 := by omega
            have : dj = 0 := by omega
            exact hd ⟨by omega, by omega⟩
      | k + 1 =>
          have e1 : i + (k + 1) * di = i + di + k * di := by ring
          have e2 : j + (k + 1) * dj = j + dj + k * dj := by ring
          rw [e1, e2]
          rw [ih (i + di) (j + dj) _ ?hb2 k (by simp at hk; omega)]
          · rfl
          · intro m hm
            have hbm := hb (m + 1) (by simp; omega)
            have e3 : i + (m + 1) * di = i + di + m * di := by ring
            have e4 : j + (m + 1) * dj = j + dj + m * dj := by ring
            rw [e3, e4] at hbm
            constructor
            · rw [setSq_length]; exact hbm.1
            · rw [setSq_row_length]; exact hbm.2

/-- A small bordered example board with one letter. -/
def exampleBoard : Board :=
  [[.border, .border, .border, .border],
   [.border, .letter 'A', .empty, .border],
   [.border, .border, .border, .border]]

/-- C10: `make_play(play, board)` changes only the squares on the
play's path: every board coordinate that is not of the form
`(start_i + k*di, start_j + k*dj)` for some `0 <= k < len(word)` holds
the same content after the call as before. -/
theorem C10_make_play_frame (play : Play) (board : Board) (i' j' : Nat)
    (h : ∀ k, k < play.2.2.2.length →
      ¬ (i' = play.2.1.1 + k * play.2.2.1.1 ∧ j' = play.2.1.2 + k * play.2.2.1.2)) :
    getSq (make_play play board) i' j' = getSq board i' j' := by
  unfold make_play
  exact make_play_go_frame _ _ _ _ _ _ _ _ h

/-- Witness for C10 on a concrete board and play. -/
theorem C10_witness :
    getSq (make_play (4, (1, 1), ACROSS, ['A', 'B']) exampleBoard) 2 2 =
      getSq exampleBoard 2 2 :=
  C10_make_play_frame (4, (1, 1), ACROSS, ['A', 'B']) exampleBoard 2 2 (by decide)

/-- C5 counterexample: `make_play` does not fail when a target square
already holds a different letter; it silently overwrites it.  Here the
square holds `'A'`, the play writes `'B'`, and the call returns the
overwritten board. -/
theorem C5_counterexample :
    getSq [[Square.letter 'A']] 0 0 = Square.letter 'A' ∧
    make_play (0, (0, 0), ACROSS, ['B']) [[Square.letter 'A']] = [[Square.letter 'B']] := by
  decide

/-- C5 (amended): `make_play` writes `move.word` letter by letter
starting at `move.position` and stepping by `move.direction`,
unconditionally: whatever a target square held before (the same letter,
a different letter, or anything else), after the call it holds the
letter being placed there, and the call never fails. -/
theorem C5_make_play_writes (play : Play) (board : Board)
    (hd : ¬ (play.2.2.1.1 = 0 ∧ play.2.2.1.2 = 0))
    (hb : ∀ k, k < play.2.2.2.length →
      play.2.1.2 + k * play.2.2.1.2 < board.length ∧
      play.2.1.1 + k * play.2.2.1.1 < (board.getD (play.2.1.2 + k * play.2.2.1.2) []).length)
    (k : Nat) (hk : k < play.2.2.2.length) :
    getSq (make_play play board) (play.2.1.1 + k * play.2.2.1.1)
      (play.2.1.2 + k * play.2.2.1.2) = Square.letter (play.2.2.2.getD k ' ') := by
  unfold make_play
  exact make_play_go_writes _ _ hd _ _ _ _ hb k hk

/-- Witness for C5: the very play of the counterexample goes through
`make_play` and overwrites the conflicting letter. -/
theorem C5_witness :
    getSq (make_play (0, (0, 0), ACROSS, ['B']) [[Square.letter 'A']]) (0 + 0 * 1)
      (0 + 0 * 0) = Square.letter (['B'].getD 0 ' ') :=
  C5_make_play_writes (0, (0, 0), ACROSS, ['B']) [[Square.letter 'A']]
    (by decide) (by decide) 0 (by decide)

/-! ### Transpose lemmas -/

/-- `getD` through `tail`. -/
theorem tail_getD {α : Type} (r : List α) (i : Nat) (d : α) :
    r.tail.getD i d = r.getD (i + 1) d := by
  cases r <;> rfl

/-- Heads of a list of nonempty rows. -/
theorem filterMap_head_eq_map {α : Type} (d : α) :
    ∀ (b : List (List α)), (∀ r ∈ b, r ≠ []) →
    b.filterMap List.head? = b.map (fun r => r.getD 0 d) := by
  intro b
  induction b with
  | nil => intro _; rfl
  | cons r rs ih =>
      intro h
      have hr : r ≠ [] := h r (by simp)
      cases r with
      | nil => exact absurd rfl hr
      | cons x xs =>
          simp only [List.filterMap_cons, List.head?, List.map_cons]
          rw [ih (fun r hrr => h r (by simp [hrr]))]
          rfl

/-- Reconstructing a list from its `getD` values. -/
theorem range_map_getD {α : Type} (d : α) :
    ∀ (l : List α), (List.range l.length).map (fun i => l.getD i d) = l := by
  intro l
  induction l with
  | nil => rfl
  | cons x xs ih =>
      show (List.range (xs.length + 1)).map _ = _
      rw [List.range_succ_eq_map, List.map_cons, List.map_map]
      refine congrArg₂ _ rfl ?tl
      have : ((fun i => (x :: xs).getD i d) ∘ Nat.succ) = fun i => xs.getD i d := by
        funext i; rfl
      rw [this, ih]

/-- On a rectangular matrix with nonzero width, `transpose` is the
matrix of columns. -/
theorem transpose_rect {α : Type} (d : α) :
    ∀ (n : Nat) (b : List (List α)), b ≠ [] → (∀ r ∈ b, r.length = n) →
    transpose b = (List.range n).map (fun i => b.map (fun r => r.getD i d)) := by
  intro n
  induction n with
  | zero =>
      intro b hne hrect
      obtain ⟨r, rs, rfl⟩ := List.exists_cons_of_ne_nil hne
      have hr : r = [] := List.eq_nil_of_length_eq_zero (hrect r (by simp))
      subst hr
      rfl
  | succ n ih =>
      intro b hne hrect
      obtain ⟨r, rs, rfl⟩ := List.exists_cons_of_ne_nil hne
      have hrlen : r.length = n + 1 := hrect r (by simp)
      have hnonempty : ∀ s ∈ r :: rs, s ≠ [] := by
        intro s hs hc
        have := hrect s hs
        rw [hc] at this
        simp at this
      have hcond : ¬ ((r :: rs).isEmpty = true ∨ (r :: rs).any List.isEmpty = true) := by
        simp only [List.isEmpty_iff, List.any_eq_true]
        rintro (hc | ⟨s, hs, hc⟩)
        · exact List.noConfusion hc
        · exact hnonempty s hs (by simpa [List.isEmpty_iff] using hc)
      have hstep : transpose (r :: rs) =
          ((r :: rs).filterMap List.head?) :: transposeAux ((r :: rs).headD []).length
            ((r :: rs).map List.tail) := by
        show transposeAux (((r :: rs).headD []).length + 1) (r :: rs) = _
        rw [transposeAux]
        rw [if_neg hcond]
      have htails_len : ∀ s ∈ (r :: rs).map List.tail, s.length = n := by
        intro s hs
        obtain ⟨t, ht, rfl⟩ := List.mem_map.mp hs
        have := hrect t ht
        cases t with
        | nil => simp at this
        | cons y ys => simpa [List.tail] using this
      have htails_head : (((r :: rs).map List.tail).headD []).length = n := by
        simp only [List.map_cons, List.headD_cons]
        have := hrect r (by simp)
        cases r with
        | nil => simp at this
        | cons y ys => simpa [List.tail] using this
      have htrans_tails : transposeAux (((r :: rs).headD []).length)
          ((r :: rs).map List.tail) = transpose ((r :: rs).map List.tail) := by
        unfold transpose
        rw [htails_head]
        have : ((r :: rs).headD []).length = n + 1 := by simpa using hrlen
        rw [this]
      rw [hstep, htrans_tails, ih _ (by simp) htails_len]
      rw [filterMap_head_eq_map d _ hnonempty]
      rw [List.range_succ_eq_map]
      simp only [List.map_cons, List.map_map]
      refine congrArg₂ _ rfl ?cols
      refine List.map_congr_left ?f
      intro i _
      simp only [Function.comp_apply, List.map_map]
      rw [tail_getD]
      refine congrArg₂ _ rfl ?g2
      refine List.map_congr_left ?g
      intro s _
      simp only [Function.comp_apply]
      exact tail_getD s i d

/-- C7 counterexample: a rectangular board with one row and zero
columns is not restored by a double transposition (`zip` collapses it
to the empty board). -/
theorem C7_counterexample :
    transpose (transpose [([] : List Square)]) ≠ [([] : List Square)] := by decide

/-- C7 (amended): for every rectangular board whose rows have nonzero
common length (boards with no rows at all are also fine, vacuously),
`transpose (transpose b) = b`; a nonempty board with zero-length rows
is collapsed to `[]` by the first transposition and is not restored. -/
theorem C7_transpose_involution (b : Board) (n : Nat) (hn : 0 < n)
    (hrect : ∀ r ∈ b, r.length = n) : transpose (transpose b) = b := by
  cases b with
  | nil => rfl
  | cons r rs =>
      have hT := transpose_rect Square.border n (r :: rs) (by simp) hrect
      have hTlen : ∀ row ∈ transpose (r :: rs), row.length = (r :: rs).length := by
        intro row hrow
        rw [hT] at hrow
        obtain ⟨i, _, rfl⟩ := List.mem_map.mp hrow
        simp
      have hTne : transpose (r :: rs) ≠ [] := by
        rw [hT]
        simp only [ne_eq, List.map_eq_nil_iff, List.range_eq_nil]
        omega
      have hTT := transpose_rect Square.border ((r :: rs).length) _ hTne hTlen
      rw [hTT]
      refine List.ext_getElem (by simp) ?entries
      intro j h1 h2
      rw [List.getElem_map]
      rw [List.getElem_range]
      rw [hT]
      have hjlen : j < (r :: rs).length := by simpa using h2
      have hrowlen : ((r :: rs)[j]).length = n := hrect _ (List.getElem_mem _)
      conv_rhs => rw [← range_map_getD Square.border ((r :: rs)[j])]
      rw [hrowlen]
      refine List.ext_getElem (by simp) ?inner
      intro i hi1 hi2
      simp only [List.getElem_map, List.getElem_range]
      rw [List.getD_eq_getElem?_getD, List.getElem?_eq_getElem (by simpa using hjlen),
        Option.getD_some, List.getElem_map]

/-- Witness for C7 on a concrete 3 x 4 board. -/
theorem C7_witness : transpose (transpose exampleBoard) = exampleBoard :=
  C7_transpose_involution exampleBoard 4 (by decide) (by decide)

/-! ### `readwordlist` lemmas -/

/-- The word-set component of the `readwordlist` fold. -/
theorem readwordlist_fold_fst :
    ∀ (ws : List (List Char)) (a b : List (List Char)),
    (ws.foldl (fun (sets : List (List Char) × List (List Char)) word =>
      (sets.1 ++ [word], sets.2 ++ prefixes word)) (a, b)).1 = a ++ ws := by
  intro ws
  induction ws with
  | nil => intro a b; simp
  | cons w ws ih =>
      intro a b
      show (ws.foldl _ (a ++ [w], b ++ prefixes w)).1 = _
      rw [ih]
      simp

/-- Membership in the prefix-set component of the `readwordlist` fold. -/
theorem readwordlist_fold_snd_mem :
    ∀ (ws : List (List Char)) (a b : List (List Char)) (x : List Char),
    (x ∈ (ws.foldl (fun (sets : List (List Char) × List (List Char)) word =>
      (sets.1 ++ [word], sets.2 ++ prefixes word)) (a, b)).2 ↔
      x ∈ b ∨ ∃ w ∈ ws, x ∈ prefixes w) := by
  intro ws
  induction ws with
  | nil => intro a b x; simp
  | cons w ws ih =>
      intro a b x
      show x ∈ (ws.foldl _ (a ++ [w], b ++ prefixes w)).2 ↔ _
      rw [ih]
      simp only [List.mem_append, List.mem_cons]
      constructor
      · rintro ((hx | hx) | ⟨w', hw', hx⟩)
        · exact Or.inl hx
        · exact Or.inr ⟨w, Or.inl rfl, hx⟩
        · exact Or.inr ⟨w', Or.inr hw', hx⟩
      · rintro (hx | ⟨w', hw' | hw', hx⟩)
        · exact Or.inl (Or.inl hx)
        · subst hw'; exact Or.inl (Or.inr hx)
        · exact Or.inr ⟨w', hw', hx⟩

/-- The word set of `readwordlist` is exactly the token list. -/
theorem readwordlist_fst (text : List Char) :
    (readwordlist text).1 = pySplit (text.map Char.toUpper) := by
  unfold readwordlist
  rw [readwordlist_fold_fst]
  rfl

/-- Membership in the prefix set of `readwordlist`. -/
theorem readwordlist_snd_mem (text : List Char) (x : List Char) :
    x ∈ (readwordlist text).2 ↔
      ∃ w ∈ pySplit (text.map Char.toUpper), x ∈ prefixes w := by
  unfold readwordlist
  rw [readwordlist_fold_snd_mem]
  simp

/-- C9: every proper prefix of a word of the word set returned by
`readwordlist` (each `word.take k` with `k < word.length`, which covers
the empty prefix and excludes the word itself) belongs to the returned
prefix set. -/
theorem C9_prefix_closed (text : List Char) (w p : List Char)
    (hw : w ∈ (readwordlist text).1) (hp : p <+: w) (hne : p ≠ w) :
    p ∈ (readwordlist text).2 := by
  rw [readwordlist_fst] at hw
  rw [readwordlist_snd_mem]
  refine ⟨w, hw, ?hin⟩
  have hlt : p.length < w.length := by
    rcases Nat.lt_or_ge p.length w.length with h | h
    · exact h
    · exact absurd (List.IsPrefix.eq_of_length_le hp h) hne
  have htake : p = w.take p.length := List.prefix_iff_eq_take.mp hp
  unfold prefixes
  rw [List.mem_map]
  exact ⟨p.length, by rw [List.mem_range]; exact hlt, htake.symm⟩

/-- Witness for C9: the proper prefix "AB" of the word "ABC". -/
theorem C9_witness : ['A', 'B'] ∈ (readwordlist "abc xy".toList).2 :=
  C9_prefix_closed "abc xy".toList ['A', 'B', 'C'] ['A', 'B']
    (by decide) (by decide) (by decide)

/-- C8 counterexample: `readwordlist` performs no validation.  The
malformed token "ab3" is uppercased to "AB3", kept in the word set, and
contributes its prefixes (here "AB") to the prefix set, contradicting
the claim that tokens containing a non-letter are dropped. -/
theorem C8_counterexample :
    ['A', 'B', '3'] ∈ (readwordlist "ab3 cd".toList).1 ∧
    ('3' ∉ LETTERS) ∧
    ['A', 'B'] ∈ (readwordlist "ab3 cd".toList).2 := by decide

/-- C8 (amended): dictionary construction accepts every whitespace
token of the uppercased text, alphabetic or not: each such token lands
in the returned word set and all its proper prefixes land in the
returned prefix set, and construction never fails. -/
theorem C8_no_validation (text : List Char) (w : List Char)
    (hw : w ∈ pySplit (text.map Char.toUpper)) :
    w ∈ (readwordlist text).1 ∧ ∀ k, k < w.length → w.take k ∈ (readwordlist text).2 := by
  constructor
  · rw [readwordlist_fst]; exact hw
  · intro k hk
    rw [readwordlist_snd_mem]
    refine ⟨w, hw, ?hin⟩
    unfold prefixes
    rw [List.mem_map]
    exact ⟨k, by rw [List.mem_range]; exact hk, rfl⟩

/-- Witness for C8 on the malformed token "ab3". -/
theorem C8_witness :
    ['A', 'B', '3'] ∈ (readwordlist "ab3 cd".toList).1 ∧
    ∀ k, k < (['A', 'B', '3'] : List Char).length →
      (['A', 'B', '3'] : List Char).take k ∈ (readwordlist "ab3 cd".toList).2 :=
  C8_no_validation "ab3 cd".toList ['A', 'B', '3'] (by decide)

/-- C2: on the empty board (whose only start square is the centre
`(8, 8)`), each across placement of "CAB" through the centre scores
`(3+1+3) * 2 = 14`: the point values are C=3, A=1, B=3, the covered
squares carry no letter bonus, and the centre star doubles the word. -/
theorem C2_cab_score :
    POINTS 'C' = 3 ∧ POINTS 'A' = 1 ∧ POINTS 'B' = 3 ∧
    getBonus 6 8 = '.' ∧ getBonus 7 8 = '.' ∧ getBonus 8 8 = '*' ∧
    getBonus 9 8 = '.' ∧ getBonus 10 8 = '.' ∧
    calculate_score empty_board (6, 8) ACROSS ['C', 'A', 'B'] ['C', 'A', 'B'] = 14 ∧
    calculate_score empty_board (7, 8) ACROSS ['C', 'A', 'B'] ['C', 'A', 'B'] = 14 ∧
    calculate_score empty_board (8, 8) ACROSS ['C', 'A', 'B'] ['C', 'A', 'B'] = 14 := by
  decide

/-! ### Generic fold and square lemmas -/

/-- Membership in a fold whose step either keeps the accumulator or
appends new elements characterized by `C`. -/
theorem foldl_mem_iff_mem {β X : Type} (step : List X → β → List X) (C : β → X → Prop)
    (l : List β)
    (hstep : ∀ b ∈ l, ∀ res x, x ∈ step res b ↔ x ∈ res ∨ C b x) :
    ∀ (res : List X) (x : X), x ∈ l.foldl step res ↔ x ∈ res ∨ ∃ b ∈ l, C b x := by
  induction l with
  | nil => intro res x; simp
  | cons b bs ih =>
      intro res x
      show x ∈ bs.foldl step (step res b) ↔ _
      rw [ih (fun b hb => hstep b (by simp [hb])), hstep b (by simp)]
      constructor
      · rintro ((hx | hx) | ⟨b', hb', hx⟩)
        · exact Or.inl hx
        · exact Or.inr ⟨b, by simp, hx⟩
        · exact Or.inr ⟨b', by simp [hb'], hx⟩
      · rintro (hx | ⟨b', hb', hx⟩)
        · exact Or.inl (Or.inl hx)
        · rcases List.mem_cons.mp hb' with rfl | hb'
          · exact Or.inl (Or.inr hx)
          · exact Or.inr ⟨b', hb', hx⟩

/-- An `is_empty` square is never a letter. -/
theorem is_empty_not_letter {sq : Square} (h : is_empty sq = true) :
    ¬ is_letter sq = true := by
  cases sq <;> simp [is_empty, is_letter] at *

/-- A letter square means the index is inside the row. -/
theorem is_letter_lt_length {row : List Square} {i : Nat}
    (h : is_letter (row.getD i Square.border) = true) : i < row.length := by
  by_contra hge
  rw [List.getD_eq_default _ _ (by omega)] at h
  simp [is_letter] at h

/-- An empty square means the index is inside the row. -/
theorem is_empty_lt_length {row : List Square} {i : Nat}
    (h : is_empty (row.getD i Square.border) = true) : i < row.length := by
  by_contra hge
  rw [List.getD_eq_default _ _ (by omega)] at h
  simp [is_empty] at h

/-- `getD` of an appended singleton at the append point. -/
theorem getD_append_length {α : Type} (l : List α) (a : α) (d : α) :
    (l ++ [a]).getD l.length d = a := by
  rw [List.getD_eq_getElem?_getD, List.getElem?_append_right (le_refl _)]
  simp

/-- `getD` agreement along a prefix. -/
theorem IsPrefix.getD_eq {α : Type} {l1 l2 : List α} (h : l1 <+: l2) {k : Nat}
    (hk : k < l1.length) (d : α) : l2.getD k d = l1.getD k d := by
  have hk2 : k < l2.length := lt_of_lt_of_le hk h.length_le
  rw [List.getD_eq_getElem _ _ hk, List.getD_eq_getElem _ _ hk2]
  exact (List.IsPrefix.getElem h hk).symm

/-- `removed` never lengthens the hand. -/
theorem removed_length_le (letters remove : List Char) :
    (removed letters remove).length ≤ letters.length := by
  induction remove generalizing letters with
  | nil => exact le_refl _
  | cons L rest ih =>
      show (removed (letters.erase L) rest).length ≤ _
      exact le_trans (ih (letters.erase L)) (List.length_erase_le _ _)

/-- `removed` respects hand permutation. -/
theorem removed_perm {h1 h2 : List Char} (remove : List Char) (hp : h1.Perm h2) :
    (removed h1 remove).Perm (removed h2 remove) := by
  induction remove generalizing h1 h2 with
  | nil => exact hp
  | cons L rest ih =>
      show (removed (h1.erase L) rest).Perm (removed (h2.erase L) rest)
      exact ih (hp.erase L)

/-! ### Letter-pattern congruence -/

/-- The letter data of a square: which letter it shows, if any. -/
def letterOf (sq : Square) : Option Char :=
  if is_letter sq = true then some (sqChar sq) else none

/-- Two squares with equal letter data agree on `is_letter` and, when a
letter, on the character. -/
theorem letterOf_is_letter {s1 s2 : Square} (h : letterOf s1 = letterOf s2) :
    is_letter s1 = is_letter s2 ∧ (is_letter s1 = true → sqChar s1 = sqChar s2) := by
  unfold letterOf at h
  by_cases h1 : is_letter s1 = true <;> by_cases h2 : is_letter s2 = true
  · rw [if_pos h1, if_pos h2] at h
    exact ⟨by rw [h1, h2], fun _ => Option.some.inj h⟩
  · rw [if_pos h1, if_neg h2] at h
    exact absurd h (by simp)
  · rw [if_neg h1, if_pos h2] at h
    exact absurd h.symm (by simp)
  · exact ⟨by rw [Bool.eq_false_iff.mpr h1, Bool.eq_false_iff.mpr h2],
      fun hc => absurd hc h1⟩

/-- `fcw_up` only reads letter data. -/
theorem fcw_up_congr (b1 b2 : Board) (i : Nat)
    (h : ∀ i' j', letterOf (getSq b1 i' j') = letterOf (getSq b2 i' j')) :
    ∀ (j2 : Nat) (w : List Char), fcw_up b1 i j2 w = fcw_up b2 i j2 w := by
  intro j2
  induction j2 with
  | zero => intro w; rfl
  | succ j2 ih =>
      intro w
      obtain ⟨hl, hc⟩ := letterOf_is_letter (h i j2)
      show (if is_letter (getSq b1 i j2) = true then
          fcw_up b1 i j2 (sqChar (getSq b1 i j2) :: w) else (j2 + 1, w)) =
        (if is_letter (getSq b2 i j2) = true then
          fcw_up b2 i j2 (sqChar (getSq b2 i j2) :: w) else (j2 + 1, w))
      by_cases hb : is_letter (getSq b1 i j2) = true
      · rw [if_pos hb, if_pos (hl ▸ hb), hc hb, ih]
      · rw [if_neg hb, if_neg (hl ▸ hb)]

/-- `fcw_down_aux` only reads letter data and the board height. -/
theorem fcw_down_aux_congr (b1 b2 : Board) (i : Nat) (hlen : b1.length = b2.length)
    (h : ∀ i' j', letterOf (getSq b1 i' j') = letterOf (getSq b2 i' j')) :
    ∀ (fuel j3 : Nat), fcw_down_aux b1 i fuel j3 = fcw_down_aux b2 i fuel j3 := by
  intro fuel
  induction fuel with
  | zero => intro j3; rfl
  | succ fuel ih =>
      intro j3
      obtain ⟨hl, hc⟩ := letterOf_is_letter (h i j3)
      show (if j3 < b1.length then
          (if is_letter (getSq b1 i j3) = true then
            sqChar (getSq b1 i j3) :: fcw_down_aux b1 i fuel (j3 + 1) else [])
        else []) =
        (if j3 < b2.length then
          (if is_letter (getSq b2 i j3) = true then
            sqChar (getSq b2 i j3) :: fcw_down_aux b2 i fuel (j3 + 1) else [])
        else [])
      rw [← hlen]
      by_cases hj : j3 < b1.length
      · rw [if_pos hj, if_pos hj]
        by_cases hb : is_letter (getSq b1 i j3) = true
        · have hb2 : is_letter (getSq b2 i j3) = true := by rw [← hl]; exact hb
          rw [if_pos hb, if_pos hb2, hc hb, ih]
        · have hb2 : ¬ is_letter (getSq b2 i j3) = true := by rw [← hl]; exact hb
          rw [if_neg hb, if_neg hb2]
      · rw [if_neg hj, if_neg hj]

/-- `find_cross_word` only reads letter data and the board height. -/
theorem find_cross_word_congr (b1 b2 : Board) (hlen : b1.length = b2.length)
    (h : ∀ i' j', letterOf (getSq b1 i' j') = letterOf (getSq b2 i' j')) (i j : Nat) :
    find_cross_word b1 i j = find_cross_word b2 i j := by
  obtain ⟨hl, hc⟩ := letterOf_is_letter (h i j)
  unfold find_cross_word
  have hw0 : (if is_letter (getSq b1 i j) = true then [sqChar (getSq b1 i j)]
      else ['.']) = (if is_letter (getSq b2 i j) = true then [sqChar (getSq b2 i j)]
      else ['.']) := by
    by_cases hb : is_letter (getSq b1 i j) = true
    · rw [if_pos hb, if_pos (hl ▸ hb), hc hb]
    · rw [if_neg hb, if_neg (hl ▸ hb)]
  have hdown : fcw_down b1 i (j + 1) = fcw_down b2 i (j + 1) := by
    unfold fcw_down
    rw [hlen]
    exact fcw_down_aux_congr b1 b2 i hlen h _ _
  show (let up := fcw_up b1 i j (if is_letter (getSq b1 i j) = true
      then [sqChar (getSq b1 i j)] else ['.']); (up.1, up.2 ++ fcw_down b1 i (j + 1))) =
    (let up := fcw_up b2 i j (if is_letter (getSq b2 i j) = true
      then [sqChar (getSq b2 i j)] else ['.']); (up.1, up.2 ++ fcw_down b2 i (j + 1)))
  rw [hw0, fcw_up_congr b1 b2 i h j, hdown]

/-! ### Closed form of `set_anchors` -/

/-- The condition under which the `set_anchors` loop marks column `i`
of row `j` as an anchor, phrased against a fixed board state. -/
def saCond (b : Board) (i j : Nat) : Prop :=
  getSq b i j = Square.star ∨
    (is_empty (getSq b i j) = true ∧
      (is_letter (getSq b i (j - 1)) = true ∨ is_letter (getSq b i (j + 1)) = true ∨
       is_letter (getSq b (i + 1) j) = true ∨ is_letter (getSq b (i - 1) j) = true))

instance saCond_decidable (b : Board) (i j : Nat) : Decidable (saCond b i j) := by
  unfold saCond
  infer_instance

/-- The anchor value `set_anchors` writes at an anchor square. -/
def anchorVal (W : List (List Char)) (b : Board) (i j : Nat) : Square :=
  if is_letter (getSq b i (j - 1)) = true ∨ is_letter (getSq b i (j + 1)) = true then
    Square.anchor (LETTERS.filter (fun L => replaceDot (find_cross_word b i j).2 L ∈ W))
  else Square.anchorAny

/-- An anchored square carries no letter. -/
theorem anchorVal_not_letter (W : List (List Char)) (b : Board) (i j : Nat) :
    is_letter (anchorVal W b i j) = false := by
  unfold anchorVal
  by_cases hc : is_letter (getSq b i (j - 1)) = true ∨ is_letter (getSq b i (j + 1)) = true
  · rw [if_pos hc]; rfl
  · rw [if_neg hc]; rfl

/-- An anchor-eligible square carries no letter. -/
theorem saCond_not_letter {b : Board} {i j : Nat} (h : saCond b i j) :
    ¬ is_letter (getSq b i j) = true := by
  cases h with
  | inl hstar => rw [hstar]; simp [is_letter]
  | inr hemp => exact is_empty_not_letter hemp.1

/-- An anchored square has no letter data. -/
theorem anchorVal_letterOf (W : List (List Char)) (b : Board) (i j : Nat) :
    letterOf (anchorVal W b i j) = none := by
  unfold letterOf
  rw [if_neg]
  rw [anchorVal_not_letter]
  simp

/-- An anchor-eligible square has no letter data. -/
theorem saCond_letterOf {b : Board} {i j : Nat} (h : saCond b i j) :
    letterOf (getSq b i j) = none := by
  unfold letterOf
  rw [if_neg (saCond_not_letter h)]

/-- A nonempty row means the row index is in range. -/
theorem getD_row_lt {b : Board} {j : Nat} (h : b.getD j [] ≠ []) : j < b.length := by
  by_contra hge
  rw [List.getD_eq_default _ _ (by omega)] at h
  exact h rfl

/-- The board state after the first `k` iterations of the
`set_anchors` loop on row `j`. -/
def sa_fold (W : List (List Char)) (j : Nat) (b : Board) (k : Nat) : Board :=
  (List.range' 1 k).foldl (set_anchors_step W (b.getD j []) j) b

/-- Pointwise description of the `set_anchors` loop: after `k` scanned
columns, columns `1..k` of row `j` satisfying `saCond` hold their
anchor value and everything else is untouched. -/
theorem sa_fold_spec (W : List (List Char)) (j : Nat) (b : Board) :
    ∀ k, k + 2 ≤ (b.getD j []).length →
      (∀ i' j', getSq (sa_fold W j b k) i' j' =
        if j' = j ∧ 1 ≤ i' ∧ i' ≤ k ∧ saCond b i' j then anchorVal W b i' j
        else getSq b i' j') ∧
      (sa_fold W j b k).length = b.length ∧
      (∀ j'', ((sa_fold W j b k).getD j'' []).length = (b.getD j'' []).length) := by
  intro k
  induction k with
  | zero =>
      intro _
      refine ⟨?_, rfl, fun _ => rfl⟩
      intro i' j'
      have h0 : sa_fold W j b 0 = b := rfl
      rw [h0, if_neg]
      rintro ⟨_, h1, h2, _⟩
      omega
  | succ k ih =>
      intro hk
      obtain ⟨hform, hlen, hrow⟩ := ih (by omega)
      have hfold : sa_fold W j b (k + 1) =
          set_anchors_step W (b.getD j []) j (sa_fold W j b k) (1 + k) := by
        unfold sa_fold
        rw [List.range'_1_concat, List.foldl_append]
        rfl
      set Bk := sa_fold W j b k with hBk
      have hN : getSq Bk (1 + k) (j - 1) = getSq b (1 + k) (j - 1) := by
        rw [hform]; rw [if_neg]; rintro ⟨_, _, hle, _⟩; omega
      have hS : getSq Bk (1 + k) (j + 1) = getSq b (1 + k) (j + 1) := by
        rw [hform]; rw [if_neg]; rintro ⟨_, _, hle, _⟩; omega
      have hE : getSq Bk (1 + k + 1) j = getSq b (1 + k + 1) j := by
        rw [hform]; rw [if_neg]; rintro ⟨_, _, hle, _⟩; omega
      have hWl : is_letter (getSq Bk (1 + k - 1) j) = is_letter (getSq b (1 + k - 1) j) := by
        have he : 1 + k - 1 = k := by omega
        rw [he, hform]
        by_cases hc : j = j ∧ 1 ≤ k ∧ k ≤ k ∧ saCond b k j
        · rw [if_pos hc, anchorVal_not_letter]
          exact (Bool.eq_false_iff.mpr (saCond_not_letter hc.2.2.2)).symm
        · rw [if_neg hc]
      have hlequal : ∀ i' j', letterOf (getSq Bk i' j') = letterOf (getSq b i' j') := by
        intro i' j'
        rw [hform]
        by_cases hc : j' = j ∧ 1 ≤ i' ∧ i' ≤ k ∧ saCond b i' j
        · obtain ⟨hj', hi1, hi2, hsa⟩ := hc
          subst hj'
          rw [if_pos ⟨rfl, hi1, hi2, hsa⟩, anchorVal_letterOf, saCond_letterOf hsa]
        · rw [if_neg hc]
      have hfcw : find_cross_word Bk (1 + k) j = find_cross_word b (1 + k) j :=
        find_cross_word_congr Bk b hlen hlequal (1 + k) j
      have horig_ne : b.getD j [] ≠ [] := by
        intro hc
        rw [hc] at hk
        simp at hk
      have hjlt : j < b.length := getD_row_lt horig_ne
      have hjltBk : j < Bk.length := by rw [hlen]; exact hjlt
      have hilt : 1 + k < (Bk.getD j []).length := by rw [hrow]; omega
      have hstep : set_anchors_step W (b.getD j []) j Bk (1 + k) =
          (if saCond b (1 + k) j then
            (if is_letter (getSq b (1 + k) (j - 1)) = true ∨
                is_letter (getSq b (1 + k) (j + 1)) = true then
              setSq Bk (1 + k) j (Square.anchor (LETTERS.filter
                (fun L => replaceDot (find_cross_word b (1 + k) j).2 L ∈ W)))
            else setSq Bk (1 + k) j Square.anchorAny)
          else Bk) := by
        show (if (b.getD j []).getD (1 + k) Square.border = Square.star ∨
              (is_empty ((b.getD j []).getD (1 + k) Square.border) = true ∧
                (is_letter (getSq Bk (1 + k) (j - 1)) = true ∨
                 is_letter (getSq Bk (1 + k) (j + 1)) = true ∨
                 is_letter (getSq Bk (1 + k + 1) j) = true ∨
                 is_letter (getSq Bk (1 + k - 1) j) = true)) then
            (if is_letter (getSq Bk (1 + k) (j - 1)) = true ∨
                is_letter (getSq Bk (1 + k) (j + 1)) = true then
              setSq Bk (1 + k) j (Square.anchor (LETTERS.filter
                (fun L => replaceDot (find_cross_word Bk (1 + k) j).2 L ∈ W)))
            else setSq Bk (1 + k) j Square.anchorAny)
          else Bk) = _
        rw [hN, hS, hE, hWl, hfcw]
        rfl
      refine ⟨?_, ?_, ?_⟩
      · intro i' j'
        rw [hfold, hstep]
        by_cases hsa : saCond b (1 + k) j
        · rw [if_pos hsa]
          by_cases hNS : is_letter (getSq b (1 + k) (j - 1)) = true ∨
              is_letter (getSq b (1 + k) (j + 1)) = true
          · rw [if_pos hNS]
            by_cases htarget : i' = 1 + k ∧ j' = j
            · obtain ⟨rfl, rfl⟩ := htarget
              rw [getSq_setSq_self Bk _ _ _ hjltBk hilt]
              rw [if_pos ⟨rfl, by omega, by omega, hsa⟩]
              unfold anchorVal
              rw [if_pos hNS]
            · rw [getSq_setSq_ne Bk _ _ _ _ _ htarget, hform]
              by_cases hc : j' = j ∧ 1 ≤ i' ∧ i' ≤ k ∧ saCond b i' j
              · rw [if_pos hc, if_pos ⟨hc.1, hc.2.1, by omega, hc.2.2.2⟩]
              · rw [if_neg hc, if_neg]
                rintro ⟨hj', hi1, hi2, hsa'⟩
                rcases Nat.lt_or_ge i' (k + 1) with hlt | hge
                · exact hc ⟨hj', hi1, by omega, hsa'⟩
                · exact htarget ⟨by omega, hj'⟩
          · rw [if_neg hNS]
            by_cases htarget : i' = 1 + k ∧ j' = j
            · obtain ⟨rfl, rfl⟩ := htarget
              rw [getSq_setSq_self Bk _ _ _ hjltBk hilt]
              rw [if_pos ⟨rfl, by omega, by omega, hsa⟩]
              unfold anchorVal
              rw [if_neg hNS]
            · rw [getSq_setSq_ne Bk _ _ _ _ _ htarget, hform]
              by_cases hc : j' = j ∧ 1 ≤ i' ∧ i' ≤ k ∧ saCond b i' j
              · rw [if_pos hc, if_pos ⟨hc.1, hc.2.1, by omega, hc.2.2.2⟩]
              · rw [if_neg hc, if_neg]
                rintro ⟨hj', hi1, hi2, hsa'⟩
                rcases Nat.lt_or_ge i' (k + 1) with hlt | hge
                · exact hc ⟨hj', hi1, by omega, hsa'⟩
                · exact htarget ⟨by omega, hj'⟩
        · rw [if_neg hsa, hform]
          by_cases hc : j' = j ∧ 1 ≤ i' ∧ i' ≤ k ∧ saCond b i' j
          · rw [if_pos hc, if_pos ⟨hc.1, hc.2.1, by omega, hc.2.2.2⟩]
          · rw [if_neg hc, if_neg]
            rintro ⟨hj', hi1, hi2, hsa'⟩
            rcases Nat.lt_or_ge i' (k + 1) with hlt | hge
            · exact hc ⟨hj', hi1, by omega, hsa'⟩
            · have hik : i' = 1 + k := by omega
              rw [hik] at hsa'
              exact hsa hsa'
      · rw [hfold, hstep]
        by_cases hsa : saCond b (1 + k) j
        · rw [if_pos hsa]
          by_cases hNS : is_letter (getSq b (1 + k) (j - 1)) = true ∨
              is_letter (getSq b (1 + k) (j + 1)) = true
          · rw [if_pos hNS, setSq_length]; exact hlen
          · rw [if_neg hNS, setSq_length]; exact hlen
        · rw [if_neg hsa]; exact hlen
      · intro j''
        rw [hfold, hstep]
        by_cases hsa : saCond b (1 + k) j
        · rw [if_pos hsa]
          by_cases hNS : is_letter (getSq b (1 + k) (j - 1)) = true ∨
              is_letter (getSq b (1 + k) (j + 1)) = true
          · rw [if_pos hNS, setSq_row_length]; exact hrow j''
          · rw [if_neg hNS, setSq_row_length]; exact hrow j''
        · rw [if_neg hsa]; exact hrow j''

/-- Top-level pointwise description of `set_anchors`. -/
theorem set_anchors_getSq (W : List (List Char)) (j : Nat) (b : Board) (i' j' : Nat) :
    getSq (set_anchors W j b) i' j' =
      if j' = j ∧ 1 ≤ i' ∧ i' + 2 ≤ (b.getD j []).length ∧ saCond b i' j
      then anchorVal W b i' j else getSq b i' j' := by
  have hsa : set_anchors W j b = sa_fold W j b ((b.getD j []).length - 2) := rfl
  by_cases hlen2 : 2 ≤ (b.getD j []).length
  · obtain ⟨hform, _, _⟩ := sa_fold_spec W j b ((b.getD j []).length - 2) (by omega)
    rw [hsa, hform]
    by_cases hc : j' = j ∧ 1 ≤ i' ∧ i' ≤ (b.getD j []).length - 2 ∧ saCond b i' j
    · rw [if_pos hc, if_pos ⟨hc.1, hc.2.1, by omega, hc.2.2.2⟩]
    · rw [if_neg hc, if_neg]
      rintro ⟨h1, h2, h3, h4⟩
      exact hc ⟨h1, h2, by omega, h4⟩
  · have h0 : (b.getD j []).length - 2 = 0 := by omega
    have hid : set_anchors W j b = b := by rw [hsa, h0]; rfl
    rw [hid, if_neg]
    rintro ⟨_, h2, h3, _⟩
    omega

/-- `set_anchors` keeps the board height. -/
theorem set_anchors_length (W : List (List Char)) (j : Nat) (b : Board) :
    (set_anchors W j b).length = b.length := by
  have hsa : set_anchors W j b = sa_fold W j b ((b.getD j []).length - 2) := rfl
  by_cases hlen2 : 2 ≤ (b.getD j []).length
  · obtain ⟨_, hlen, _⟩ := sa_fold_spec W j b ((b.getD j []).length - 2) (by omega)
    rw [hsa]; exact hlen
  · have h0 : (b.getD j []).length - 2 = 0 := by omega
    rw [hsa, h0]
    rfl

/-- `set_anchors` keeps every row length. -/
theorem set_anchors_row_length (W : List (List Char)) (j : Nat) (b : Board) (j'' : Nat) :
    ((set_anchors W j b).getD j'' []).length = (b.getD j'' []).length := by
  have hsa : set_anchors W j b = sa_fold W j b ((b.getD j []).length - 2) := rfl
  by_cases hlen2 : 2 ≤ (b.getD j []).length
  · obtain ⟨_, _, hrow⟩ := sa_fold_spec W j b ((b.getD j []).length - 2) (by omega)
    rw [hsa]; exact hrow j''
  · have h0 : (b.getD j []).length - 2 = 0 := by omega
    rw [hsa, h0]
    rfl

/-- The anchor value is an anchor. -/
theorem isAnchorSq_anchorVal (W : List (List Char)) (b : Board) (i j : Nat) :
    isAnchorSq (anchorVal W b i j) = true := by
  unfold anchorVal
  by_cases hc : is_letter (getSq b i (j - 1)) = true ∨ is_letter (getSq b i (j + 1)) = true
  · rw [if_pos hc]; rfl
  · rw [if_neg hc]; rfl

/-- An anchor-eligible square satisfies `is_empty`. -/
theorem saCond_is_empty {b : Board} {i j : Nat} (h : saCond b i j) :
    is_empty (getSq b i j) = true := by
  cases h with
  | inl hstar => rw [hstar]; rfl
  | inr hemp => exact hemp.1

/-- Board evolution during the search: the shape is unchanged and
every square either keeps its content or turns from an empty square
into an anchor. -/
def Evol (b c : Board) : Prop :=
  c.length = b.length ∧ (∀ j'', (c.getD j'' []).length = (b.getD j'' []).length) ∧
  ∀ i j, getSq c i j = getSq b i j ∨
    (isAnchorSq (getSq c i j) = true ∧ is_empty (getSq b i j) = true)

/-- `Evol` is reflexive. -/
theorem Evol_refl (b : Board) : Evol b b :=
  ⟨rfl, fun _ => rfl, fun _ _ => Or.inl rfl⟩

/-- Anchors are `is_empty`. -/
theorem isAnchorSq_is_empty {sq : Square} (h : isAnchorSq sq = true) :
    is_empty sq = true := by
  cases sq <;> simp [isAnchorSq, is_empty] at *

/-- `Evol` is transitive. -/
theorem Evol_trans {a b c : Board} (h1 : Evol a b) (h2 : Evol b c) : Evol a c := by
  obtain ⟨hl1, hr1, hs1⟩ := h1
  obtain ⟨hl2, hr2, hs2⟩ := h2
  refine ⟨hl2.trans hl1, fun j'' => (hr2 j'').trans (hr1 j''), ?_⟩
  intro i j
  rcases hs2 i j with heq | ⟨hanc, hemp⟩
  · rw [heq]; exact hs1 i j
  · right
    refine ⟨hanc, ?_⟩
    rcases hs1 i j with heq1 | ⟨hanc1, hemp1⟩
    · rw [← heq1]; exact hemp
    · exact hemp1

/-- One `set_anchors` call is an evolution step. -/
theorem Evol_set_anchors (W : List (List Char)) (j : Nat) (b : Board) :
    Evol b (set_anchors W j b) := by
  refine ⟨set_anchors_length W j b, set_anchors_row_length W j b, ?_⟩
  intro i' j'
  rw [set_anchors_getSq]
  by_cases hc : j' = j ∧ 1 ≤ i' ∧ i' + 2 ≤ (b.getD j []).length ∧ saCond b i' j
  · rw [if_pos hc]
    right
    obtain ⟨hj', _, _, hsa⟩ := hc
    subst hj'
    exact ⟨isAnchorSq_anchorVal W b i' j', saCond_is_empty hsa⟩
  · rw [if_neg hc]
    exact Or.inl rfl

/-- Squares of evolved boards carry the same letter data. -/
theorem Evol_lettersEq {b c : Board} (h : Evol b c) :
    ∀ i j, letterOf (getSq c i j) = letterOf (getSq b i j) := by
  intro i j
  rcases h.2.2 i j with heq | ⟨hanc, hemp⟩
  · rw [heq]
  · have h1 : letterOf (getSq c i j) = none := by
      unfold letterOf
      rw [if_neg (is_empty_not_letter (isAnchorSq_is_empty hanc))]
    have h2 : letterOf (getSq b i j) = none := by
      unfold letterOf
      rw [if_neg (is_empty_not_letter hemp)]
    rw [h1, h2]

/-- The board state after anchoring the rows in `js`, in order. -/
def hp_state (W : List (List Char)) (js : List Nat) (b : Board) : Board :=
  js.foldl (fun st j => set_anchors W j st) b

/-- The whole search only evolves the board. -/
theorem hp_state_evol (W : List (List Char)) :
    ∀ (js : List Nat) (b : Board), Evol b (hp_state W js b) := by
  intro js
  induction js with
  | nil => intro b; exact Evol_refl b
  | cons j js ih =>
      intro b
      exact Evol_trans (Evol_set_anchors W j b) (ih (set_anchors W j b))

/-- Fold step used by `best_of`. -/
def best_step (acc : Option Play) (p : Play) : Option Play :=
  match acc with
  | none => some p
  | some q => if playKey q < playKey p then some p else some q

/-- Pulling the `if` out of `best_step`. -/
theorem best_step_some (q p : Play) :
    best_step (some q) p = some (if playKey q < playKey p then p else q) := by
  show (if playKey q < playKey p then some p else some q) = _
  exact (apply_ite some _ _ _).symm

/-- The `best_of` fold keeps a maximal element. -/
theorem best_of_go (l : List Play) : ∀ (q m : Play),
    l.foldl best_step (some q) = some m →
    (m = q ∨ m ∈ l) ∧ playKey q ≤ playKey m ∧ ∀ p ∈ l, playKey p ≤ playKey m := by
  induction l with
  | nil =>
      intro q m h
      have hm : m = q := (Option.some.inj h).symm
      exact ⟨Or.inl hm, le_of_eq (by rw [hm]), fun p hp => absurd hp (by simp)⟩
  | cons p l ih =>
      intro q m h
      rw [List.foldl_cons, best_step_some] at h
      obtain ⟨hmem, hq1, hall⟩ := ih _ m h
      have hq : playKey q ≤ playKey (if playKey q < playKey p then p else q) := by
        by_cases hc : playKey q < playKey p
        · rw [if_pos hc]; exact le_of_lt hc
        · rw [if_neg hc]
      have hp : playKey p ≤ playKey (if playKey q < playKey p then p else q) := by
        by_cases hc : playKey q < playKey p
        · rw [if_pos hc]
        · rw [if_neg hc]; exact le_of_not_lt hc
      refine ⟨?_, le_trans hq hq1, ?_⟩
      · rcases hmem with rfl | hm
        · by_cases hc : playKey q < playKey p
          · rw [if_pos hc]; exact Or.inr (by simp)
          · rw [if_neg hc]; exact Or.inl rfl
        · exact Or.inr (by simp [hm])
      · intro p' hp'
        rcases List.mem_cons.mp hp' with rfl | hp'
        · exact le_trans hp hq1
        · exact hall p' hp'

/-- `best_of` never drops from `some` back to `none`. -/
theorem best_of_go_isSome (l : List Play) : ∀ (q : Play),
    ∃ m, l.foldl best_step (some q) = some m := by
  induction l with
  | nil => intro q; exact ⟨q, rfl⟩
  | cons p l ih =>
      intro q
      rw [List.foldl_cons, best_step_some]
      exact ih _

/-- `best_of` of a nonempty list is a maximal member. -/
theorem best_of_eq_some {l : List Play} {m : Play} (h : best_of l = some m) :
    m ∈ l ∧ ∀ p ∈ l, playKey p ≤ playKey m := by
  cases l with
  | nil => exact absurd h (by simp [best_of])
  | cons p l =>
      have h2 : l.foldl best_step (some p) = some m := h
      obtain ⟨hmem, hq1, hall⟩ := best_of_go l p m h2
      refine ⟨?_, ?_⟩
      · rcases hmem with rfl | hm
        · simp
        · simp [hm]
      · intro p' hp'
        rcases List.mem_cons.mp hp' with rfl | hp'
        · exact hq1
        · exact hall p' hp'

/-- `best_of` is `none` exactly on the empty list. -/
theorem best_of_eq_none {l : List Play} : best_of l = none ↔ l = [] := by
  constructor
  · intro h
    cases l with
    | nil => rfl
    | cons p l =>
        obtain ⟨m, hm⟩ := best_of_go_isSome l p
        have : best_of (p :: l) = some m := hm
        rw [this] at h
        exact absurd h (by simp)
  · intro h; rw [h]; rfl

/-- The tuple order key is injective. -/
theorem playKey_inj : Function.Injective playKey := by
  intro p q h
  obtain ⟨s1, ⟨i1, j1⟩, ⟨d1, e1⟩, w1⟩ := p
  obtain ⟨s2, ⟨i2, j2⟩, ⟨d2, e2⟩, w2⟩ := q
  unfold playKey at h
  simp only [toLex_inj, Prod.mk.injEq] at h
  obtain ⟨rfl, ⟨rfl, rfl⟩, ⟨⟨rfl, rfl⟩, rfl⟩⟩ := h
  rfl

/-- Lists with the same members have the same `best_of`. -/
theorem best_of_congr {l1 l2 : List Play} (h : ∀ x, x ∈ l1 ↔ x ∈ l2) :
    best_of l1 = best_of l2 := by
  cases h1 : best_of l1 with
  | none =>
      cases h2 : best_of l2 with
      | none => rfl
      | some m2 =>
          have hl1 : l1 = [] := best_of_eq_none.mp h1
          have hm2 := (best_of_eq_some h2).1
          have hmem : m2 ∈ l1 := (h m2).mpr hm2
          rw [hl1] at hmem
          exact absurd hmem (by simp)
  | some m1 =>
      cases h2 : best_of l2 with
      | none =>
          have hl2 : l2 = [] := best_of_eq_none.mp h2
          have hm1 := (best_of_eq_some h1).1
          have hmem : m1 ∈ l2 := (h m1).mp hm1
          rw [hl2] at hmem
          exact absurd hmem (by simp)
      | some m2 =>
          obtain ⟨hm1, hall1⟩ := best_of_eq_some h1
          obtain ⟨hm2, hall2⟩ := best_of_eq_some h2
          have hle1 : playKey m1 ≤ playKey m2 := hall2 m1 ((h m1).mp hm1)
          have hle2 : playKey m2 ≤ playKey m1 := hall1 m2 ((h m2).mpr hm2)
          have hm : m1 = m2 := playKey_inj (le_antisymm hle1 hle2)
          rw [hm]

/-- A bordered board with a vertical letter A above an empty square. -/
def vertBoard : Board :=
  [[.border, .border, .border],
   [.border, .letter 'A', .border],
   [.border, .empty, .border],
   [.border, .border, .border]]

/-! ### Scoring ignores the rack -/

/-- The `hand` argument of `calculate_score` is unused. -/
theorem calculate_score_hand (b : Board) (pos : Nat × Nat) (d : Nat × Nat)
    (hand1 hand2 w : List Char) :
    calculate_score b pos d hand1 w = calculate_score b pos d hand2 w := rfl

/-! ### Framed boards -/

/-- A well-formed playing board: an `m` by `n` rectangle whose first
and last rows and first and last columns are border squares, exactly
the shape `bonus_template` produces and the program runs on. -/
def Framed (b : Board) (m n : Nat) : Prop :=
  b.length = m ∧ 2 ≤ m ∧ 2 ≤ n ∧ (∀ r ∈ b, r.length = n) ∧
  (∀ i, i < n → getSq b i 0 = Square.border ∧ getSq b i (m - 1) = Square.border) ∧
  (∀ j, j < m → getSq b 0 j = Square.border ∧ getSq b (n - 1) j = Square.border)

instance Framed_decidable (b : Board) (m n : Nat) : Decidable (Framed b m n) := by
  unfold Framed
  infer_instance

/-- Row lengths of a framed board. -/
theorem Framed_getD_len {b : Board} {m n : Nat} (hf : Framed b m n) {j : Nat}
    (hj : j < m) : (b.getD j []).length = n := by
  obtain ⟨hm, _, _, hrect, _, _⟩ := hf
  have hjb : j < b.length := by omega
  rw [List.getD_eq_getElem _ _ hjb]
  exact hrect _ (List.getElem_mem _)

/-- Everything at or beyond the frame of a framed board is border. -/
theorem Framed_border {b : Board} {m n : Nat} (hf : Framed b m n) (i j : Nat)
    (h : i = 0 ∨ i + 1 ≥ n ∨ j = 0 ∨ j + 1 ≥ m) : getSq b i j = Square.border := by
  obtain ⟨hm, hm2, hn2, hrect, hcols, hrows⟩ := hf
  by_cases hjm : j < m
  · by_cases hin : i < n
    · rcases h with rfl | hi | rfl | hj
      · exact (hrows j hjm).1
      · have hieq : i = n - 1 := by omega
        rw [hieq]
        exact (hrows j hjm).2
      · exact (hcols i hin).1
      · have hjeq : j = m - 1 := by omega
        rw [hjeq]
        exact (hcols i hin).2
    · have hrow : (b.getD j []).length = n := by
        rw [List.getD_eq_getElem _ _ (by omega)]
        exact hrect _ (List.getElem_mem _)
      unfold getSq
      rw [List.getD_eq_default _ _ (by omega)]
  · unfold getSq
    rw [List.getD_eq_default b [] (by omega)]
    rfl

/-- Framedness survives board evolution. -/
theorem Framed_evol {b c : Board} {m n : Nat} (hf : Framed b m n) (he : Evol b c) :
    Framed c m n := by
  obtain ⟨hm, hm2, hn2, hrect, hcols, hrows⟩ := hf
  obtain ⟨hlen, hrowlen, hsq⟩ := he
  have hborder : ∀ i j, getSq b i j = Square.border → getSq c i j = Square.border := by
    intro i j hb
    rcases hsq i j with heq | ⟨_, hemp⟩
    · rw [heq, hb]
    · rw [hb] at hemp
      exact absurd hemp (by simp [is_empty])
  refine ⟨by rw [hlen, hm], hm2, hn2, ?_, ?_, ?_⟩
  · intro r hr
    obtain ⟨jj, hjj, hjr⟩ := List.getElem_of_mem hr
    have h1 : c.getD jj [] = r := by rw [List.getD_eq_getElem _ _ hjj, hjr]
    have h2 : jj < b.length := by rw [hlen] at hjj; exact hjj
    have h3 : (b.getD jj []).length = n := by
      rw [List.getD_eq_getElem _ _ h2]
      exact hrect _ (List.getElem_mem _)
    rw [← h1, hrowlen jj, h3]
  · intro i hi
    exact ⟨hborder i 0 (hcols i hi).1, hborder i (m - 1) (hcols i hi).2⟩
  · intro j hj
    exact ⟨hborder 0 j (hrows j hj).1, hborder (n - 1) j (hrows j hj).2⟩

/-! ### Transpose and framing -/

/-- Transposition swaps the coordinates of every read, for rectangular
boards (out-of-range reads are border on both sides). -/
theorem transpose_getSq (b : Board) (n : Nat) (hrect : ∀ r ∈ b, r.length = n)
    (i j : Nat) : getSq (transpose b) i j = getSq b j i := by
  cases b with
  | nil => rfl
  | cons r rs =>
      have hT := transpose_rect Square.border n (r :: rs) (by simp) hrect
      rw [hT]
      show (((List.range n).map
          (fun c => (r :: rs).map (fun row => row.getD c Square.border))).getD j
          []).getD i Square.border = ((r :: rs).getD i []).getD j Square.border
      by_cases hj : j < n
      · have hrow : ((List.range n).map
            (fun c => (r :: rs).map (fun row => row.getD c Square.border))).getD j [] =
            (r :: rs).map (fun row => row.getD j Square.border) := by
          rw [List.getD_eq_getElem?_getD,
            List.getElem?_eq_getElem (by simpa using hj), Option.getD_some,
            List.getElem_map, List.getElem_range]
        rw [hrow]
        by_cases hi : i < (r :: rs).length
        · rw [List.getD_eq_getElem?_getD, List.getElem?_eq_getElem (by simpa using hi),
            Option.getD_some, List.getElem_map,
            List.getD_eq_getElem (r :: rs) ([] : List Square) hi]
        · rw [List.getD_eq_default _ _ (by simp at hi ⊢; omega),
            List.getD_eq_default (r :: rs) ([] : List Square) (by omega)]
          rfl
      · have hout : ((List.range n).map
            (fun c => (r :: rs).map (fun row => row.getD c Square.border))).getD j [] =
            [] := List.getD_eq_default _ _ (by simp; omega)
        rw [hout]
        show Square.border = _
        by_cases hi : i < (r :: rs).length
        · have hlen : ((r :: rs).getD i []).length = n := by
            rw [List.getD_eq_getElem _ _ hi]
            exact hrect _ (List.getElem_mem _)
          rw [List.getD_eq_default _ _ (by omega)]
        · rw [List.getD_eq_default (r :: rs) ([] : List Square) (by omega)]
          rfl

/-- Height of the transpose of a nonempty rectangular board. -/
theorem transpose_length (b : Board) (n : Nat) (hrect : ∀ r ∈ b, r.length = n)
    (hne : b ≠ []) : (transpose b).length = n := by
  rw [transpose_rect Square.border n b hne hrect]
  simp

/-- Row lengths of the transpose of a nonempty rectangular board. -/
theorem transpose_rows_len (b : Board) (n : Nat) (hrect : ∀ r ∈ b, r.length = n)
    (hne : b ≠ []) : ∀ r ∈ transpose b, r.length = b.length := by
  rw [transpose_rect Square.border n b hne hrect]
  intro r hr
  obtain ⟨c, _, rfl⟩ := List.mem_map.mp hr
  simp

/-- The transpose of a framed board is framed with the dimensions
swapped. -/
theorem Framed_transpose {b : Board} {m n : Nat} (hf : Framed b m n) :
    Framed (transpose b) n m := by
  have hm := hf.1
  have hm2 := hf.2.1
  have hn2 := hf.2.2.1
  have hrect := hf.2.2.2.1
  have hne : b ≠ [] := by
    intro hc
    rw [hc] at hm
    simp at hm
    omega
  have hget := transpose_getSq b n hrect
  refine ⟨transpose_length b n hrect hne, hn2, hm2, ?_, ?_, ?_⟩
  · intro r hr
    rw [transpose_rows_len b n hrect hne r hr, hm]
  · intro i hi
    rw [hget i 0, hget i (n - 1)]
    exact ⟨Framed_border hf 0 i (by omega), Framed_border hf (n - 1) i (by omega)⟩
  · intro j hj
    rw [hget 0 j, hget (m - 1) j]
    exact ⟨Framed_border hf j 0 (by omega), Framed_border hf j (m - 1) (by omega)⟩

/-! ### What `legal_prefix` guarantees about the scanned squares -/

/-- The first `legal_prefix` loop never moves right. -/
theorem lp_letters_le (row : List Square) : ∀ i, lp_letters row i ≤ i := by
  intro i
  induction i with
  | zero => exact Nat.le_refl 0
  | succ s ih =>
      unfold lp_letters
      by_cases h : is_letter (row.getD s Square.border) = true
      · rw [if_pos h]; omega
      · rw [if_neg h]

/-- Every square the first `legal_prefix` loop skipped is a letter. -/
theorem lp_letters_letter (row : List Square) :
    ∀ i p, lp_letters row i ≤ p → p < i → is_letter (row.getD p Square.border) = true := by
  intro i
  induction i with
  | zero => intro p _ hp; omega
  | succ s ih =>
      intro p h1 h2
      unfold lp_letters at h1
      by_cases h : is_letter (row.getD s Square.border) = true
      · rw [if_pos h] at h1
        rcases Nat.lt_or_ge p s with hps | hps
        · exact ih p h1 hps
        · have hpe : p = s := by omega
          rw [hpe]; exact h
      · rw [if_neg h] at h1
        omega

/-- The second `legal_prefix` loop never moves right. -/
theorem lp_empties_le (row : List Square) : ∀ i, lp_empties row i ≤ i := by
  intro i
  induction i with
  | zero => exact Nat.le_refl 0
  | succ s ih =>
      unfold lp_empties
      by_cases h : row.getD s Square.border = Square.empty ∨
          row.getD s Square.border = Square.star
      · rw [if_pos h]; omega
      · rw [if_neg h]

/-- Every square the second `legal_prefix` loop skipped is a plain
empty square or the star. -/
theorem lp_empties_empty (row : List Square) :
    ∀ i p, lp_empties row i ≤ p → p < i →
      row.getD p Square.border = Square.empty ∨ row.getD p Square.border = Square.star := by
  intro i
  induction i with
  | zero => intro p _ hp; omega
  | succ s ih =>
      intro p h1 h2
      unfold lp_empties at h1
      by_cases h : row.getD s Square.border = Square.empty ∨
          row.getD s Square.border = Square.star
      · rw [if_pos h] at h1
        rcases Nat.lt_or_ge p s with hps | hps
        · exact ih p h1 hps
        · have hpe : p = s := by omega
          rw [hpe]; exact h
      · rw [if_neg h] at h1
        omega

/-- When `legal_prefix` returns a board prefix, every square it covers
(immediately left of the anchor) is a letter of the row. -/
theorem legalPrefix_ne_letters (i : Nat) (row : List Square)
    (h : (legalPrefix i row).1 ≠ []) :
    (legalPrefix i row).1.length ≤ i ∧
    ∀ p, i - (legalPrefix i row).1.length ≤ p → p < i →
      is_letter (row.getD p Square.border) = true := by
  unfold legalPrefix at h ⊢
  by_cases hs : lp_letters row i < i
  · rw [if_pos hs]
    have hle := lp_letters_le row i
    constructor
    · simp only [List.length_map, List.length_range']
      omega
    · intro p hp1 hp2
      refine lp_letters_letter row i p ?_ hp2
      simp only [List.length_map, List.length_range'] at hp1
      omega
  · rw [if_neg hs] at h
    exact absurd rfl h

/-- When `legal_prefix` returns no board prefix, every square inside
the reported max-size range left of the anchor is a plain empty square
or the star. -/
theorem legalPrefix_nil_empties (i : Nat) (row : List Square)
    (h : (legalPrefix i row).1 = []) :
    ∀ p, i - (legalPrefix i row).2 ≤ p → p < i →
      row.getD p Square.border = Square.empty ∨ row.getD p Square.border = Square.star := by
  unfold legalPrefix at h ⊢
  by_cases hs : lp_letters row i < i
  · rw [if_pos hs] at h
    have : i - lp_letters row i ≠ 0 := by omega
    simp only [List.map_eq_nil_iff, List.range'_eq_nil] at h
    omega
  · rw [if_neg hs]
    intro p hp1 hp2
    have hle := lp_empties_le row i
    refine lp_empties_empty row i p ?_ hp2
    simp only at hp1
    omega

/-! ### What an anchored row guarantees at each square -/

/-- After `set_anchors` runs on row `j` of a board that evolved from a
framed original board, each square of that row constrains the letters
that may later be placed on it: a restricted anchor either admits only
letters whose completed cross word (computed on the original board) is
a dictionary word or has no vertical letter neighbour at all, and an
unrestricted anchor or plain empty square never has a vertical letter
neighbour; the star never survives in the interior. -/
theorem anchored_square_cases (W : List (List Char)) (b0 bprev : Board)
    (m n j p : Nat) (hf0 : Framed b0 m n) (hevol : Evol b0 bprev) :
    (∀ S, getSq (set_anchors W j bprev) p j = Square.anchor S →
       (∀ L ∈ S, replaceDot (find_cross_word b0 p j).2 L ∈ W) ∨
       (¬ is_letter (getSq b0 p (j - 1)) = true ∧
        ¬ is_letter (getSq b0 p (j + 1)) = true)) ∧
    (getSq (set_anchors W j bprev) p j = Square.anchorAny →
       ¬ is_letter (getSq b0 p (j - 1)) = true ∧
       ¬ is_letter (getSq b0 p (j + 1)) = true) ∧
    (getSq (set_anchors W j bprev) p j = Square.empty →
       ¬ is_letter (getSq b0 p (j - 1)) = true ∧
       ¬ is_letter (getSq b0 p (j + 1)) = true) ∧
    getSq (set_anchors W j bprev) p j ≠ Square.star := by
  have hfp : Framed bprev m n := Framed_evol hf0 hevol
  have hlet := Evol_lettersEq hevol
  have hlet' : ∀ i' j', is_letter (getSq bprev i' j') = is_letter (getSq b0 i' j') :=
    fun i' j' => (letterOf_is_letter (hlet i' j')).1
  have hfcw : find_cross_word bprev p j = find_cross_word b0 p j :=
    find_cross_word_congr bprev b0 hevol.1 hlet p j
  have htrans : ¬ is_letter (getSq bprev p (j - 1)) = true →
      ¬ is_letter (getSq bprev p (j + 1)) = true →
      ¬ is_letter (getSq b0 p (j - 1)) = true ∧
      ¬ is_letter (getSq b0 p (j + 1)) = true := by
    intro hN hS
    rw [hlet' p (j - 1)] at hN
    rw [hlet' p (j + 1)] at hS
    exact ⟨hN, hS⟩
  have hmain := set_anchors_getSq W j bprev p j
  by_cases hc : j = j ∧ 1 ≤ p ∧ p + 2 ≤ (bprev.getD j []).length ∧ saCond bprev p j
  · rw [if_pos hc] at hmain
    unfold anchorVal at hmain
    by_cases hNS : is_letter (getSq bprev p (j - 1)) = true ∨
        is_letter (getSq bprev p (j + 1)) = true
    · rw [if_pos hNS] at hmain
      refine ⟨?_, ?_, ?_, ?_⟩
      · intro S hS
        rw [hmain] at hS
        left
        intro L hL
        have hmem := List.mem_filter.mp ((Square.anchor.inj hS.symm) ▸ hL)
        have := of_decide_eq_true hmem.2
        rw [hfcw] at this
        exact this
      · intro hS
        rw [hmain] at hS
        exact absurd hS (by simp)
      · intro hS
        rw [hmain] at hS
        exact absurd hS (by simp)
      · rw [hmain]
        simp
    · rw [if_neg hNS] at hmain
      push_neg at hNS
      refine ⟨?_, ?_, ?_, ?_⟩
      · intro S hS
        rw [hmain] at hS
        exact absurd hS (by simp)
      · intro _
        exact htrans hNS.1 hNS.2
      · intro hS
        rw [hmain] at hS
        exact absurd hS (by simp)
      · rw [hmain]
        simp
  · rw [if_neg hc] at hmain
    have hint : ∀ v : Square, v ≠ Square.border → getSq bprev p j = v →
        1 ≤ p ∧ p + 2 ≤ n ∧ 1 ≤ j ∧ j + 2 ≤ m := by
      intro v hv heq
      by_contra hcon
      have hb := Framed_border hfp p j (by omega)
      rw [heq] at hb
      exact hv hb
    have hnosa : ∀ v : Square, v ≠ Square.border → getSq bprev p j = v →
        ¬ saCond bprev p j := by
      intro v hv heq hsa
      obtain ⟨h1, h2, h3, h4⟩ := hint v hv heq
      have hrl : (bprev.getD j []).length = n := Framed_getD_len hfp (by omega)
      exact hc ⟨rfl, h1, by omega, hsa⟩
    have hnoNS : ∀ v : Square, v ≠ Square.border → is_empty v = true →
        getSq bprev p j = v →
        ¬ is_letter (getSq b0 p (j - 1)) = true ∧
        ¬ is_letter (getSq b0 p (j + 1)) = true := by
      intro v hv hemp heq
      have hnsa := hnosa v hv heq
      unfold saCond at hnsa
      push_neg at hnsa
      have hemp' : is_empty (getSq bprev p j) = true := by rw [heq]; exact hemp
      have hdisj := hnsa.2 hemp'
      push_neg at hdisj
      exact htrans hdisj.1 hdisj.2.1
    refine ⟨?_, ?_, ?_, ?_⟩
    · intro S hS
      rw [hmain] at hS
      exact Or.inr (hnoNS (Square.anchor S) (by simp) (by rfl) hS)
    · intro hS
      rw [hmain] at hS
      exact hnoNS Square.anchorAny (by simp) (by rfl) hS
    · intro hS
      rw [hmain] at hS
      exact hnoNS Square.empty (by simp) (by rfl) hS
    · rw [hmain]
      intro hS
      have hsa : saCond bprev p j := Or.inl hS
      exact hnosa Square.star (by simp) hS hsa

/-- `legal_prefix` never reports a max size reaching past the row start. -/
theorem legalPrefix_snd_le (i : Nat) (row : List Square) : (legalPrefix i row).2 ≤ i := by
  unfold legalPrefix
  by_cases hs : lp_letters row i < i
  · rw [if_pos hs]
    show i - lp_letters row i ≤ i
    omega
  · rw [if_neg hs]
    show i - lp_empties row i ≤ i
    omega

/-! ### The search raises on every anchored board -/

/-- A completed anchor scan returned the empty result set and certifies
that no scanned square is an anchor. -/
theorem rp_scan_ok (P : List (List Char)) (hand : List Char) (row : List Square) :
    ∀ (l : List Nat) (v : List (Nat × List Char)),
    rp_scan P hand row l = Except.ok v →
    v = [] ∧ ∀ i ∈ l, ¬ isAnchorSq (row.getD i Square.border) = true := by
  intro l
  induction l with
  | nil =>
      intro v hv
      have hv' : Except.ok ([] : List (Nat × List Char)) = Except.ok v := hv
      exact ⟨(Except.ok.inj hv').symm, by simp⟩
  | cons i rest ih =>
      intro v hv
      unfold rp_scan at hv
      by_cases ha : isAnchorSq (row.getD i Square.border) = true
      · rw [if_pos ha] at hv
        by_cases hne : (legalPrefix i row).1 ≠ []
        · rw [if_pos hne] at hv
          simp at hv
        · rw [if_neg hne] at hv
          unfold find_prefixes at hv
          by_cases hP : [] ∈ P
          · rw [if_pos hP] at hv
            simp at hv
          · rw [if_neg hP] at hv
            simp at hv
      · rw [if_neg ha] at hv
        obtain ⟨h1, h2⟩ := ih v hv
        refine ⟨h1, ?_⟩
        intro i' hi'
        rcases List.mem_cons.mp hi' with rfl | hi'
        · exact ha
        · exact h2 i' hi'

/-- Boards that agree on shape and on every read are equal. -/
theorem Board_ext {b c : Board} (hlen : b.length = c.length)
    (hrows : ∀ j, (b.getD j []).length = (c.getD j []).length)
    (hsq : ∀ i j, getSq b i j = getSq c i j) : b = c := by
  apply List.ext_getElem hlen
  intro j h1 h2
  apply List.ext_getElem
  · have := hrows j
    rwa [List.getD_eq_getElem _ _ h1, List.getD_eq_getElem _ _ h2] at this
  · intro i hi1 hi2
    have := hsq i j
    unfold getSq at this
    rwa [List.getD_eq_getElem _ _ h1, List.getD_eq_getElem _ _ h2,
      List.getD_eq_getElem _ _ hi1, List.getD_eq_getElem _ _ hi2] at this

/-- When no scanned column of row `j` is anchor-eligible, `set_anchors`
writes nothing at all. -/
theorem set_anchors_id (W : List (List Char)) (j : Nat) (b : Board)
    (h : ∀ i ∈ List.range' 1 ((b.getD j []).length - 2), ¬ saCond b i j) :
    set_anchors W j b = b := by
  apply Board_ext (set_anchors_length W j b) (fun j'' => set_anchors_row_length W j b j'')
  intro i' j'
  rw [set_anchors_getSq, if_neg]
  rintro ⟨hj', h1, h2, hsa⟩
  subst hj'
  exact h i' (List.mem_range'_1.mpr ⟨h1, by omega⟩) hsa

/-- A `row_plays` call that returns did so with the empty result set,
and the `set_anchors` call that preceded it wrote nothing. -/
theorem row_plays_ok_id (W P : List (List Char)) (hand : List Char) (b : Board)
    (j : Nat) (v : List (Nat × List Char))
    (h : row_plays P hand ((set_anchors W j b).getD j []) = Except.ok v) :
    v = [] ∧ set_anchors W j b = b := by
  obtain ⟨hv, hna⟩ := rp_scan_ok P hand ((set_anchors W j b).getD j []) _ v h
  refine ⟨hv, set_anchors_id W j b ?_⟩
  intro i hi hsa
  have hrl := set_anchors_row_length W j b j
  have hmem := List.mem_range'_1.mp hi
  have hcond : getSq (set_anchors W j b) i j = anchorVal W b i j := by
    rw [set_anchors_getSq, if_pos]
    exact ⟨rfl, by omega, by omega, hsa⟩
  have hanch : isAnchorSq (((set_anchors W j b).getD j []).getD i Square.border) = true := by
    show isAnchorSq (getSq (set_anchors W j b) i j) = true
    rw [hcond]
    exact isAnchorSq_anchorVal W b i j
  have hi' : i ∈ List.range' 1 (((set_anchors W j b).getD j []).length - 2) := by
    rw [hrl]
    exact hi
  exact hna i hi' hanch

/-- The row loop returns only with its initial result set and an
unchanged board. -/
theorem hp_go_ok (W P : List (List Char)) (hand : List Char) :
    ∀ (js : List Nat) (res : List (Nat × (Nat × Nat) × List Char)) (b : Board)
      (r : List (Nat × (Nat × Nat) × List Char)) (b' : Board),
    hp_go W P hand js res b = (Except.ok r, b') → r = res ∧ b' = b := by
  intro js
  induction js with
  | nil =>
      intro res b r b' h
      have h' : ((Except.ok res : Except PyExc (List (Nat × (Nat × Nat) × List Char))), b) =
          (Except.ok r, b') := h
      injection h' with h1 h2
      exact ⟨(Except.ok.inj h1).symm, h2.symm⟩
  | cons j js ih =>
      intro res b r b' h
      have hstep : hp_go W P hand (j :: js) res b =
          match row_plays P hand ((set_anchors W j b).getD j []) with
          | Except.error e => (Except.error e, set_anchors W j b)
          | Except.ok rps =>
              hp_go W P hand js (res ++ rps.map (fun iw =>
                (calculate_score (set_anchors W j b) (iw.1, j) ACROSS hand iw.2,
                 (iw.1, j), iw.2))) (set_anchors W j b) := rfl
      rw [hstep] at h
      rcases hrp : row_plays P hand ((set_anchors W j b).getD j []) with e | rps
      · rw [hrp] at h
        have h1 := congrArg Prod.fst h
        simp at h1
      · rw [hrp] at h
        obtain ⟨hrps, hid⟩ := row_plays_ok_id W P hand b j rps hrp
        subst hrps
        simp only [List.map_nil, List.append_nil] at h
        obtain ⟨h1, h2⟩ := ih res (set_anchors W j b) r b' h
        rw [hid] at h2
        exact ⟨h1, h2⟩

/-- `all_plays` when the first pass raises. -/
theorem all_plays_error (W P : List (List Char)) (hand : List Char) (b : Board)
    (e : PyExc) (bh : Board)
    (h : horizontal_plays W P hand b = (Except.error e, bh)) :
    all_plays W P hand b = (Except.error e, bh) := by
  unfold all_plays
  rw [h]

/-- `all_plays` when the first pass returns and the transposed pass
raises. -/
theorem all_plays_snd_error (W P : List (List Char)) (hand : List Char) (b : Board)
    (hplays : List (Nat × (Nat × Nat) × List Char)) (bh : Board) (e : PyExc) (bv : Board)
    (h1 : horizontal_plays W P hand b = (Except.ok hplays, bh))
    (h2 : horizontal_plays W P hand (transpose bh) = (Except.error e, bv)) :
    all_plays W P hand b = (Except.error e, bh) := by
  unfold all_plays
  rw [h1]
  show (match (horizontal_plays W P hand (transpose bh)).1 with
      | Except.error e => ((Except.error e : Except PyExc (List Play)), bh)
      | Except.ok vplays =>
          (Except.ok (hplays.map
              (fun p : Nat × (Nat × Nat) × List Char => (p.1, p.2.1, ACROSS, p.2.2)) ++
             vplays.map
              (fun p : Nat × (Nat × Nat) × List Char =>
                (p.1, (p.2.1.2, p.2.1.1), DOWN, p.2.2))), bh)) = _
  rw [h2]

/-- `all_plays` when both passes return. -/
theorem all_plays_both_ok (W P : List (List Char)) (hand : List Char) (b : Board)
    (hplays : List (Nat × (Nat × Nat) × List Char)) (bh : Board)
    (vplays : List (Nat × (Nat × Nat) × List Char)) (bv : Board)
    (h1 : horizontal_plays W P hand b = (Except.ok hplays, bh))
    (h2 : horizontal_plays W P hand (transpose bh) = (Except.ok vplays, bv)) :
    all_plays W P hand b =
      (Except.ok (hplays.map (fun p => (p.1, p.2.1, ACROSS, p.2.2)) ++
         vplays.map (fun p => (p.1, (p.2.1.2, p.2.1.1), DOWN, p.2.2))), bh) := by
  unfold all_plays
  rw [h1]
  show (match (horizontal_plays W P hand (transpose bh)).1 with
      | Except.error e => ((Except.error e : Except PyExc (List Play)), bh)
      | Except.ok vplays =>
          (Except.ok (hplays.map
              (fun p : Nat × (Nat × Nat) × List Char => (p.1, p.2.1, ACROSS, p.2.2)) ++
             vplays.map
              (fun p : Nat × (Nat × Nat) × List Char =>
                (p.1, (p.2.1.2, p.2.1.1), DOWN, p.2.2))), bh)) = _
  rw [h2]

/-- `all_plays` returns only with the empty play set and an unchanged
board. -/
theorem all_plays_ok (W P : List (List Char)) (hand : List Char) (b : Board)
    (plays : List Play) (b1 : Board)
    (h : all_plays W P hand b = (Except.ok plays, b1)) : plays = [] ∧ b1 = b := by
  rcases hhp : horizontal_plays W P hand b with ⟨he | hplays, bh⟩
  · rw [all_plays_error W P hand b he bh hhp] at h
    injection h with h1 h2
    exact absurd h1 (by simp)
  · rcases hvp : horizontal_plays W P hand (transpose bh) with ⟨e2 | vplays, bv⟩
    · rw [all_plays_snd_error W P hand b hplays bh e2 bv hhp hvp] at h
      injection h with h1 h2
      exact absurd h1 (by simp)
    · rw [all_plays_both_ok W P hand b hplays bh vplays bv hhp hvp] at h
      have hh := hp_go_ok W P hand (List.range' 1 (b.length - 2)) [] b hplays bh hhp
      have hv := hp_go_ok W P hand (List.range' 1 ((transpose bh).length - 2)) []
        (transpose bh) vplays bv hvp
      obtain ⟨hh1, hh2⟩ := hh
      subst hh1
      obtain ⟨hv1, _⟩ := hv
      subst hv1
      injection h with h1 h2
      simp only [List.map_nil, List.append_nil] at h1
      exact ⟨(Except.ok.inj h1).symm, by rw [← h2]; exact hh2⟩

/-- `best_play` when the search raises. -/
theorem best_play_error (W P : List (List Char)) (hand : List Char) (b : Board)
    (e : PyExc) (b1 : Board) (h : all_plays W P hand b = (Except.error e, b1)) :
    best_play W P hand b = (Except.error e, b1) := by
  unfold best_play
  rw [h]

/-- `best_play` when the search returns. -/
theorem best_play_ok_eq (W P : List (List Char)) (hand : List Char) (b : Board)
    (plays : List Play) (b1 : Board)
    (h : all_plays W P hand b = (Except.ok plays, b1)) :
    best_play W P hand b = (Except.ok (best_of plays), b1) := by
  unfold best_play
  rw [h]

/-- `best_play` returns only with `NOPLAY = None` and an unchanged
board. -/
theorem best_play_ok (W P : List (List Char)) (hand : List Char) (b : Board)
    (r : Option Play) (h : (best_play W P hand b).1 = Except.ok r) :
    r = none ∧ (best_play W P hand b).2 = b := by
  rcases hap : all_plays W P hand b with ⟨ae | plays, b1⟩
  · rw [best_play_error W P hand b ae b1 hap] at h
    exact absurd h (by simp)
  · obtain ⟨hpl, hb1⟩ := all_plays_ok W P hand b plays b1 hap
    subst hpl
    rw [best_play_ok_eq W P hand b [] b1 hap] at h ⊢
    have h' : (Except.ok (none : Option Play) : Except PyExc (Option Play)) =
        Except.ok r := h
    exact ⟨(Except.ok.inj h').symm, hb1⟩

/-- A framed board whose single interior square is empty and has no
letter neighbour: no anchor is ever created, so the search returns. -/
def plainBoard : Board :=
  [[Square.border, Square.border, Square.border],
   [Square.border, Square.empty, Square.border],
   [Square.border, Square.border, Square.border]]

/-- C1: the claimed legality property is unexercisable, because
`best_play` never returns a play.  On the anchored example board the
search raises `TypeError`: the six-argument `add_suffixes` call of
`row_plays` dispatches to the 3-parameter `add_suffixes` of line 377,
which shadows the board-aware search of lines 302-316.  And whenever
`best_play` does return (no anchor was found in either pass), the play
set is empty and the result is `NOPLAY = None`, so no primary word and
no cross word is ever produced for the dictionary to be checked
against. -/
theorem C1_no_play_ever :
    (best_play [['A', 'B']] [[], ['A']] ['B'] exampleBoard).1 =
      Except.error PyExc.typeError ∧
    ∀ (W P : List (List Char)) (hand : List Char) (b : Board) (r : Option Play),
      (best_play W P hand b).1 = Except.ok r → r = none :=
  ⟨rfl, fun W P hand b r h => (best_play_ok W P hand b r h).1⟩

theorem C1_witness :
    (best_play [['A', 'B']] [[], ['A']] ['B'] plainBoard).1 = Except.ok none ∧
    (none : Option Play) = none :=
  ⟨rfl, C1_no_play_ever.2 [['A', 'B']] [[], ['A']] ['B'] plainBoard none rfl⟩

/-- C3: whenever `best_play` returns (rather than raising out of
`row_plays`), every square of the caller's board holds exactly the
content it held before the call.  A returning search found no anchor
in any row -- on an anchored row the shadowed-`add_suffixes` or
`find_prefixes` call raises before `row_plays` can finish -- and on an
anchor-free row `set_anchors` writes nothing, so the board is returned
untouched; `make_play`, applied after selection, is the mutator. -/
theorem C3_read_only_on_return (W P : List (List Char)) (hand : List Char)
    (b : Board) (r : Option Play)
    (h : (best_play W P hand b).1 = Except.ok r) :
    (best_play W P hand b).2 = b :=
  (best_play_ok W P hand b r h).2

theorem C3_witness :
    (best_play [['A', 'B']] [[], ['A']] ['B'] plainBoard).1 = Except.ok none ∧
    (best_play [['A', 'B']] [[], ['A']] ['B'] plainBoard).2 = plainBoard :=
  ⟨rfl, C3_read_only_on_return [['A', 'B']] [[], ['A']] ['B'] plainBoard none rfl⟩

/-- C4: wildcard scoring is unexercisable.  `POINTS` does assign the
wildcard 0 points, but on the board whose anchor would admit a
wildcard binding the search raises `AttributeError` (at the first
anchor, `find_prefixes(hand)` runs with its default `results=None` and
executes `results.add`) -- with the wildcard rack and with a real B
tile alike -- so no play placing a wildcard (or anything else) is ever
returned, and no wildcard is ever bound or scored. -/
theorem C4_wildcard_unreachable :
    POINTS '_' = 0 ∧
    (best_play [['A', 'B']] [[], ['A']] ['_'] vertBoard).1 =
      Except.error PyExc.attributeError ∧
    (best_play [['A', 'B']] [[], ['A']] ['B'] vertBoard).1 =
      Except.error PyExc.attributeError :=
  ⟨rfl, rfl, rfl⟩

/-! ### The outcome does not depend on the rack -/

/-- The anchor scan never reads the hand (the hand is only passed to
`find_prefixes`, whose outcome is hand-independent). -/
theorem rp_scan_hand (P : List (List Char)) (h1 h2 : List Char) (row : List Square) :
    ∀ l, rp_scan P h1 row l = rp_scan P h2 row l := by
  intro l
  induction l with
  | nil => rfl
  | cons i rest ih =>
      unfold rp_scan
      by_cases ha : isAnchorSq (row.getD i Square.border) = true
      · rw [if_pos ha, if_pos ha]
        unfold find_prefixes
        rfl
      · rw [if_neg ha, if_neg ha]
        exact ih

/-- `row_plays` does not depend on the hand. -/
theorem row_plays_hand (P : List (List Char)) (h1 h2 : List Char) (row : List Square) :
    row_plays P h1 row = row_plays P h2 row :=
  rp_scan_hand P h1 h2 row _

/-- The row loop does not depend on the hand (`calculate_score` never
reads its `hand` parameter, and no play survives to be scored anyway). -/
theorem hp_go_hand (W P : List (List Char)) (h1 h2 : List Char) :
    ∀ (js : List Nat) (res : List (Nat × (Nat × Nat) × List Char)) (b : Board),
    hp_go W P h1 js res b = hp_go W P h2 js res b := by
  intro js
  induction js with
  | nil => intro res b; rfl
  | cons j js ih =>
      intro res b
      have hs1 : hp_go W P h1 (j :: js) res b =
          match row_plays P h1 ((set_anchors W j b).getD j []) with
          | Except.error e => (Except.error e, set_anchors W j b)
          | Except.ok rps =>
              hp_go W P h1 js (res ++ rps.map (fun iw =>
                (calculate_score (set_anchors W j b) (iw.1, j) ACROSS h1 iw.2,
                 (iw.1, j), iw.2))) (set_anchors W j b) := rfl
      have hs2 : hp_go W P h2 (j :: js) res b =
          match row_plays P h2 ((set_anchors W j b).getD j []) with
          | Except.error e => (Except.error e, set_anchors W j b)
          | Except.ok rps =>
              hp_go W P h2 js (res ++ rps.map (fun iw =>
                (calculate_score (set_anchors W j b) (iw.1, j) ACROSS h2 iw.2,
                 (iw.1, j), iw.2))) (set_anchors W j b) := rfl
      rw [hs1, hs2, row_plays_hand P h1 h2 ((set_anchors W j b).getD j [])]
      rcases row_plays P h2 ((set_anchors W j b).getD j []) with e | rps
      · rfl
      · show hp_go W P h1 js (res ++ rps.map (fun iw =>
            (calculate_score (set_anchors W j b) (iw.1, j) ACROSS h1 iw.2,
             (iw.1, j), iw.2))) (set_anchors W j b) =
          hp_go W P h2 js (res ++ rps.map (fun iw =>
            (calculate_score (set_anchors W j b) (iw.1, j) ACROSS h2 iw.2,
             (iw.1, j), iw.2))) (set_anchors W j b)
        have hmap : (fun iw : Nat × List Char =>
            (calculate_score (set_anchors W j b) (iw.1, j) ACROSS h1 iw.2,
             (iw.1, j), iw.2)) =
            (fun iw : Nat × List Char =>
            (calculate_score (set_anchors W j b) (iw.1, j) ACROSS h2 iw.2,
             (iw.1, j), iw.2)) := rfl
        rw [hmap]
        exact ih _ _

/-- `horizontal_plays` does not depend on the hand. -/
theorem horizontal_plays_hand (W P : List (List Char)) (h1 h2 : List Char)
    (b : Board) : horizontal_plays W P h1 b = horizontal_plays W P h2 b :=
  hp_go_hand W P h1 h2 (List.range' 1 (b.length - 2)) [] b

/-- `all_plays` does not depend on the hand. -/
theorem all_plays_hand (W P : List (List Char)) (h1 h2 : List Char) (b : Board) :
    all_plays W P h1 b = all_plays W P h2 b := by
  rcases hhp : horizontal_plays W P h2 b with ⟨e | hplays, bh⟩
  · rw [all_plays_error W P h1 b e bh (by
      rw [horizontal_plays_hand W P h1 h2 b]; exact hhp),
      all_plays_error W P h2 b e bh hhp]
  · rcases hvp : horizontal_plays W P h2 (transpose bh) with ⟨e2 | vplays, bv⟩
    · rw [all_plays_snd_error W P h1 b hplays bh e2 bv (by
        rw [horizontal_plays_hand W P h1 h2 b]; exact hhp) (by
        rw [horizontal_plays_hand W P h1 h2 (transpose bh)]; exact hvp),
        all_plays_snd_error W P h2 b hplays bh e2 bv hhp hvp]
    · rw [all_plays_both_ok W P h1 b hplays bh vplays bv (by
        rw [horizontal_plays_hand W P h1 h2 b]; exact hhp) (by
        rw [horizontal_plays_hand W P h1 h2 (transpose bh)]; exact hvp),
        all_plays_both_ok W P h2 b hplays bh vplays bv hhp hvp]

/-- C6: for a fixed board and a rack fixed as a multiset, the full
outcome of `best_play` -- the exception raised, or `None` together
with the untouched board -- is identical across runs and across rack
orderings, so in particular any two returned plays (there are none)
have equal scores: the search never reads the rack before raising or
returning. -/
theorem C6_determinism (W P : List (List Char)) (h1 h2 : List Char) (b : Board)
    (hperm : h1.Perm h2) :
    best_play W P h1 b = best_play W P h2 b := by
  rcases hap : all_plays W P h2 b with ⟨e | plays, b1⟩
  · rw [best_play_error W P h1 b e b1 (by
      rw [all_plays_hand W P h1 h2 b]; exact hap),
      best_play_error W P h2 b e b1 hap]
  · rw [best_play_ok_eq W P h1 b plays b1 (by
      rw [all_plays_hand W P h1 h2 b]; exact hap),
      best_play_ok_eq W P h2 b plays b1 hap]

theorem C6_witness :
    List.Perm ['A', 'B'] ['B', 'A'] ∧
    best_play [['A', 'B']] [[], ['A']] ['A', 'B'] vertBoard =
      best_play [['A', 'B']] [[], ['A']] ['B', 'A'] vertBoard :=
  ⟨by decide,
   C6_determinism [['A', 'B']] [[], ['A']] ['A', 'B'] ['B', 'A'] vertBoard (by decide)⟩
